import Mathlib

/-!
Verification of the dustycam graph execution engine and pipeline manager.

This development is a shallow embedding of the core of the repository:

* `src/dustycam/frame.py`   — `FramePacket` and `copy_shallow`
* `src/dustycam/node.py`    — `Node`, `connect`, the per-frame cache
* `src/dustycam/runner.py`  — `Runner`: `_collect_graph`, `_toposort`,
  `run_once`, `_eval_node_chain`
* `src/dustycam/pipeline.py`— `Pipeline`: settings load/save/update, the
  worker thread and `stop`

Python data is modelled as follows: Python list objects are heap cells in an
explicit store (so the aliasing behaviour of `list(xs)` copies is visible);
nodes of a built graph are identified by `Fin n` with the `_inputs`/`_outputs`
adjacency lists as functions; the unbounded recursion of
`Runner._eval_node_chain` and the `while` loops of `_collect_graph` and
`_toposort` are written with an explicit fuel parameter (the top-level
entry points supply a fuel that is proved sufficient); `print` output is
collected in a log.
-/

namespace Dustycam

/-! ## Frame packets (`src/dustycam/frame.py`)

`FramePacket.copy_shallow` copies the three metadata lists with `list(...)`
while keeping the very same `image` object.  To reason about that aliasing we
model Python list objects as references into a heap of lists; list elements
are themselves opaque object references (a `list(xs)` copy shares them), so
cell contents are plain `List Nat`. -/

/-- Heap of Python list objects: reference → contents.  References `≥ nextRef`
are unallocated; allocation always returns a fresh reference. -/
structure ListHeap where
  contents : Nat → List Nat
  nextRef : Nat

/-- Allocate a new list object with the given contents (Python `list(xs)`). -/
def ListHeap.alloc (h : ListHeap) (xs : List Nat) : Nat × ListHeap :=
  (h.nextRef,
   { contents := fun r => if r = h.nextRef then xs else h.contents r,
     nextRef := h.nextRef + 1 })

/-- In-place `append` on the list object behind reference `r`. -/
def ListHeap.push (h : ListHeap) (r : Nat) (x : Nat) : ListHeap :=
  { h with contents := fun r' => if r' = r then h.contents r ++ [x] else h.contents r' }

/-- `FramePacket` (frame.py).  `image` is an opaque buffer reference;
`detections`, `regions_of_interest` and `ocr_results` are references to list
objects in a `ListHeap`; `drop_frame` is the control marker. -/
structure FramePacket where
  frame_id : Nat
  timestamp : Int
  image : Nat
  detections : Nat
  regions_of_interest : Nat
  ocr_results : Nat
  drop_frame : Bool
deriving DecidableEq

/-- A packet is well formed in a heap when its three list references are
allocated (Python guarantees this: the references came from allocations). -/
def FramePacket.wfIn (p : FramePacket) (h : ListHeap) : Prop :=
  p.detections < h.nextRef ∧ p.regions_of_interest < h.nextRef ∧
    p.ocr_results < h.nextRef

instance (p : FramePacket) (h : ListHeap) : Decidable (p.wfIn h) := by
  unfold FramePacket.wfIn; infer_instance

/-- `FramePacket.copy_shallow` (frame.py lines 32-42): same `image` reference,
freshly allocated copies of the three metadata lists, scalar fields copied. -/
def FramePacket.copy_shallow (p : FramePacket) (h : ListHeap) :
    FramePacket × ListHeap :=
  let (d, h1) := h.alloc (h.contents p.detections)
  let (r, h2) := h1.alloc (h1.contents p.regions_of_interest)
  let (o, h3) := h2.alloc (h2.contents p.ocr_results)
  ({ frame_id := p.frame_id
     timestamp := p.timestamp
     image := p.image
     detections := d
     regions_of_interest := r
     ocr_results := o
     drop_frame := p.drop_frame }, h3)

section CopyShallow

/-- Reading an already-allocated cell is unaffected by an allocation. -/
theorem ListHeap.alloc_preserves (h : ListHeap) (xs : List Nat) (r : Nat)
    (hr : r < h.nextRef) :
    (h.alloc xs).2.contents r = h.contents r := by
  simp [ListHeap.alloc]
  omega

theorem ListHeap.alloc_next (h : ListHeap) (xs : List Nat) :
    (h.alloc xs).2.nextRef = h.nextRef + 1 := rfl

theorem ListHeap.alloc_read_new (h : ListHeap) (xs : List Nat) :
    (h.alloc xs).2.contents (h.alloc xs).1 = xs := by
  simp [ListHeap.alloc]

/-- Pushing onto one list object leaves every other list object unchanged. -/
theorem ListHeap.push_other (h : ListHeap) (r : Nat) (x : Nat) (r' : Nat)
    (hne : r' ≠ r) : (h.push r x).contents r' = h.contents r' := by
  simp [ListHeap.push, hne]

/-- The three references a shallow copy hands out, and the heap bound. -/
theorem copy_shallow_refs (p : FramePacket) (h : ListHeap) :
    (p.copy_shallow h).1.detections = h.nextRef ∧
    (p.copy_shallow h).1.regions_of_interest = h.nextRef + 1 ∧
    (p.copy_shallow h).1.ocr_results = h.nextRef + 2 ∧
    (p.copy_shallow h).2.nextRef = h.nextRef + 3 := by
  refine ⟨rfl, rfl, rfl, rfl⟩

/-- Cells that were allocated before a shallow copy read the same afterwards. -/
theorem copy_shallow_old_cells (p : FramePacket) (h : ListHeap) (r : Nat)
    (hr : r < h.nextRef) :
    (p.copy_shallow h).2.contents r = h.contents r := by
  simp only [FramePacket.copy_shallow, ListHeap.alloc]
  have h1 : ¬ r = h.nextRef := by omega
  have h2 : ¬ r = h.nextRef + 1 := by omega
  have h3 : ¬ r = h.nextRef + 2 := by omega
  simp [h1, h2, h3]

/-- The fresh cells of a shallow copy hold copies of the original contents. -/
theorem copy_shallow_new_cells (p : FramePacket) (h : ListHeap)
    (hwf : p.wfIn h) :
    (p.copy_shallow h).2.contents (p.copy_shallow h).1.detections
        = h.contents p.detections ∧
    (p.copy_shallow h).2.contents (p.copy_shallow h).1.regions_of_interest
        = h.contents p.regions_of_interest ∧
    (p.copy_shallow h).2.contents (p.copy_shallow h).1.ocr_results
        = h.contents p.ocr_results := by
  obtain ⟨hd, hr, ho⟩ := hwf
  simp only [FramePacket.copy_shallow, ListHeap.alloc]
  have h1 : ¬ p.regions_of_interest = h.nextRef := by omega
  have h2 : ¬ p.ocr_results = h.nextRef := by omega
  have h3 : ¬ p.ocr_results = h.nextRef + 1 := by omega
  have h4 : ¬ h.nextRef = h.nextRef + 1 := by omega
  have h5 : ¬ h.nextRef = h.nextRef + 2 := by omega
  have h6 : ¬ h.nextRef + 1 = h.nextRef + 2 := by omega
  simp [h1, h2, h3, h4, h5, h6]

/-- C5.  Shallow-copy isolation (`FramePacket.copy_shallow`, frame.py 32-42):
the copy shares the `image` object, copies `frame_id`, `timestamp` and
`drop_frame` by value, allocates fresh list objects whose contents equal the
originals element-wise, and appending to a metadata list of one shallow copy
changes neither the original packet's lists nor those of another shallow
copy of the same packet. -/
theorem copy_shallow_isolation (p : FramePacket) (h : ListHeap)
    (hwf : p.wfIn h) :
    -- q1 is a first shallow copy, q2 a second one (taken afterwards)
    (p.copy_shallow h).1.image = p.image ∧
    (p.copy_shallow h).1.frame_id = p.frame_id ∧
    (p.copy_shallow h).1.timestamp = p.timestamp ∧
    (p.copy_shallow h).1.drop_frame = p.drop_frame ∧
    -- fresh allocations: the copy's list references are new, pairwise distinct
    ((p.copy_shallow h).1.detections ≠ p.detections ∧
     (p.copy_shallow h).1.regions_of_interest ≠ p.regions_of_interest ∧
     (p.copy_shallow h).1.ocr_results ≠ p.ocr_results ∧
     (p.copy_shallow h).1.detections ≠ (p.copy_shallow h).1.regions_of_interest ∧
     (p.copy_shallow h).1.detections ≠ (p.copy_shallow h).1.ocr_results ∧
     (p.copy_shallow h).1.regions_of_interest ≠ (p.copy_shallow h).1.ocr_results) ∧
    -- element-wise equal contents
    ((p.copy_shallow h).2.contents (p.copy_shallow h).1.detections
        = h.contents p.detections ∧
     (p.copy_shallow h).2.contents (p.copy_shallow h).1.regions_of_interest
        = h.contents p.regions_of_interest ∧
     (p.copy_shallow h).2.contents (p.copy_shallow h).1.ocr_results
        = h.contents p.ocr_results) ∧
    -- appending to the copy's lists never changes the original's lists
    (∀ x : Nat,
      ((p.copy_shallow h).2.push (p.copy_shallow h).1.detections x).contents
          p.detections = h.contents p.detections ∧
      ((p.copy_shallow h).2.push (p.copy_shallow h).1.regions_of_interest x).contents
          p.regions_of_interest = h.contents p.regions_of_interest ∧
      ((p.copy_shallow h).2.push (p.copy_shallow h).1.ocr_results x).contents
          p.ocr_results = h.contents p.ocr_results) ∧
    -- nor the lists of any other shallow copy taken from the same packet
    (∀ x : Nat,
      ((p.copy_shallow (p.copy_shallow h).2).2.push (p.copy_shallow h).1.detections
          x).contents (p.copy_shallow (p.copy_shallow h).2).1.detections
        = h.contents p.detections) := by
  obtain ⟨hd, hr, ho⟩ := hwf
  obtain ⟨e1, e2, e3, e4⟩ := copy_shallow_refs p h
  have hold := copy_shallow_old_cells p h
  have hnew := copy_shallow_new_cells p h ⟨hd, hr, ho⟩
  refine ⟨rfl, rfl, rfl, rfl, ?_, hnew, ?_, ?_⟩
  · rw [e1, e2, e3]
    omega
  · intro x
    refine ⟨?_, ?_, ?_⟩ <;>
      rw [ListHeap.push_other _ _ _ _ (by omega), hold _ (by omega)]
  · intro x
    -- q2's detections cell lives at index (h.nextRef + 3) of the second heap,
    -- q1's detections reference is h.nextRef: they are distinct cells.
    have hwf' : p.wfIn (p.copy_shallow h).2 := by
      refine ⟨?_, ?_, ?_⟩ <;> rw [e4] <;> omega
    obtain ⟨f1, f2, f3, f4⟩ := copy_shallow_refs p (p.copy_shallow h).2
    obtain ⟨g1, g2, g3⟩ := copy_shallow_new_cells p (p.copy_shallow h).2 hwf'
    rw [ListHeap.push_other _ _ _ _ (by rw [f1, e1, e4]; omega), g1,
      hold _ hd]

/-- Closed witness for `copy_shallow_isolation` at a concrete packet/heap. -/
theorem copy_shallow_isolation_witness :
    (({ frame_id := 7, timestamp := 3, image := 9, detections := 0,
        regions_of_interest := 1, ocr_results := 2, drop_frame := false } :
        FramePacket).wfIn ⟨fun r => if r = 0 then [5] else [], 3⟩) ∧
    (({ frame_id := 7, timestamp := 3, image := 9, detections := 0,
        regions_of_interest := 1, ocr_results := 2, drop_frame := false } :
        FramePacket).copy_shallow
        ⟨fun r => if r = 0 then [5] else [], 3⟩).1.image = 9 := by
  refine ⟨by decide, ?_⟩
  exact (copy_shallow_isolation _ _ (by decide)).1

end CopyShallow

/-! ## Node graphs (`src/dustycam/node.py`, `src/dustycam/runner.py`)

A built graph is a finite arena of nodes identified by `Fin n`.  `inputs v`
and `outputs v` are the `_inputs`/`_outputs` adjacency lists of node `v`.
`Node.connect` appends the edge to both endpoints, so in every graph a Runner
ever sees the number of occurrences of `v` in `u._outputs` equals the number
of occurrences of `u` in `v._inputs`; `edgeConsistent` captures exactly that
invariant. -/

structure NodeGraph (n : Nat) where
  inputs : Fin n → List (Fin n)
  outputs : Fin n → List (Fin n)

/-- Invariant established by `Node.connect` (node.py lines 16-19): edges are
recorded symmetrically, with multiplicity. -/
def edgeConsistent {n : Nat} (g : NodeGraph n) : Prop :=
  ∀ u v : Fin n, (g.outputs u).count v = (g.inputs v).count u

/-- One `_outputs` step: `v` is a direct output of `u`. -/
def outEdge {n : Nat} (g : NodeGraph n) (u v : Fin n) : Prop := v ∈ g.outputs u

/-- Reachability by following `_outputs`, as `_collect_graph` does. -/
def Reaches {n : Nat} (g : NodeGraph n) : Fin n → Fin n → Prop :=
  Relation.ReflTransGen (outEdge g)

/-! ### `Runner._collect_graph` (runner.py lines 17-26)

The Python loop pops a node from the work stack, skips it if already seen,
otherwise marks it seen and pushes its `_outputs`.  The loop is written with
an explicit fuel; `collectFuel` below is proved to be enough.  The computed
object is the `seen` set — Python's `list(seen)` then enumerates it in an
unspecified order, so the theorems quantify over an arbitrary enumeration. -/

def collectLoop {n : Nat} (g : NodeGraph n) :
    Nat → Finset (Fin n) → List (Fin n) → Finset (Fin n)
  | 0, seen, _ => seen
  | _ + 1, seen, [] => seen
  | fuel + 1, seen, x :: rest =>
    if x ∈ seen then collectLoop g fuel seen rest
    else collectLoop g fuel (insert x seen) (rest ++ g.outputs x)

/-- Sufficient fuel for `collectLoop`: every iteration pops one stack entry,
and entries are pushed at most once per unseen node. -/
def collectPot {n : Nat} (g : NodeGraph n) (seen : Finset (Fin n))
    (stack : List (Fin n)) : Nat :=
  stack.length + ∑ v ∈ Finset.univ \ seen, (1 + (g.outputs v).length)

/-- `Runner._collect_graph`: the set of nodes reachable from the sources. -/
def collect_graph {n : Nat} (g : NodeGraph n) (sources : List (Fin n)) :
    Finset (Fin n) :=
  collectLoop g (collectPot g ∅ sources) ∅ sources

section CollectGraph

variable {n : Nat} (g : NodeGraph n)

theorem collectLoop_seen_subset :
    ∀ fuel seen stack, seen ⊆ collectLoop g fuel seen stack := by
  intro fuel
  induction fuel with
  | zero => intro seen stack; simp [collectLoop]
  | succ fuel ih =>
    intro seen stack
    cases stack with
    | nil => simp [collectLoop]
    | cons x rest =>
      by_cases hx : x ∈ seen
      · simpa [collectLoop, hx] using ih seen rest
      · simp only [collectLoop, if_neg hx]
        exact (Finset.subset_insert x seen).trans (ih _ _)

/-- Everything the traversal collects is reachable from the stack (or was
already seen). -/
theorem collectLoop_sound :
    ∀ fuel seen stack x, x ∈ collectLoop g fuel seen stack →
      x ∈ seen ∨ ∃ s ∈ stack, Reaches g s x := by
  intro fuel
  induction fuel with
  | zero => intro seen stack x hx; exact Or.inl hx
  | succ fuel ih =>
    intro seen stack x hx
    cases stack with
    | nil => exact Or.inl hx
    | cons s rest =>
      by_cases hs : s ∈ seen
      · simp only [collectLoop, if_pos hs] at hx
        rcases ih seen rest x hx with h | ⟨t, ht, hr⟩
        · exact Or.inl h
        · exact Or.inr ⟨t, List.mem_cons_of_mem _ ht, hr⟩
      · simp only [collectLoop, if_neg hs] at hx
        rcases ih _ _ x hx with h | ⟨t, ht, hr⟩
        · rcases Finset.mem_insert.mp h with rfl | h
          · exact Or.inr ⟨x, List.mem_cons_self _ _, Relation.ReflTransGen.refl⟩
          · exact Or.inl h
        · rcases List.mem_append.mp ht with ht | ht
          · exact Or.inr ⟨t, List.mem_cons_of_mem _ ht, hr⟩
          · exact Or.inr ⟨s, List.mem_cons_self _ _,
              Relation.ReflTransGen.head ht hr⟩

theorem collectPot_insert (seen : Finset (Fin n)) (x : Fin n)
    (rest : List (Fin n)) (hx : x ∉ seen) :
    collectPot g (insert x seen) (rest ++ g.outputs x) + 2
      = collectPot g seen (x :: rest) := by
  unfold collectPot
  have hxmem : x ∈ Finset.univ \ seen := by simp [hx]
  have hdiff : Finset.univ \ insert x seen = (Finset.univ \ seen).erase x := by
    ext y
    simp only [Finset.mem_sdiff, Finset.mem_univ, Finset.mem_insert,
      Finset.mem_erase, true_and]
    tauto
  rw [hdiff]
  have hsum : ∑ v ∈ Finset.univ \ seen, (1 + (g.outputs v).length)
      = (1 + (g.outputs x).length)
        + ∑ v ∈ (Finset.univ \ seen).erase x, (1 + (g.outputs v).length) :=
    (Finset.add_sum_erase _ (fun v => 1 + (g.outputs v).length) hxmem).symm
  simp only [List.length_append, List.length_cons]
  omega

/-- With sufficient fuel, every stack entry ends up collected. -/
theorem collectLoop_stack_subset :
    ∀ fuel seen stack, collectPot g seen stack ≤ fuel →
      ∀ x ∈ stack, x ∈ collectLoop g fuel seen stack := by
  intro fuel
  induction fuel with
  | zero =>
    intro seen stack hpot x hx
    exfalso
    have : stack.length = 0 := by
      unfold collectPot at hpot; omega
    simp [List.length_eq_zero.mp this] at hx
  | succ fuel ih =>
    intro seen stack hpot x hx
    cases stack with
    | nil => cases hx
    | cons s rest =>
      have hpots : collectPot g seen rest + 1 = collectPot g seen (s :: rest) := by
        unfold collectPot; simp only [List.length_cons]; omega
      by_cases hs : s ∈ seen
      · simp only [collectLoop, if_pos hs]
        rcases List.mem_cons.mp hx with rfl | hx
        · exact collectLoop_seen_subset g fuel seen rest hs
        · exact ih seen rest (by omega) x hx
      · simp only [collectLoop, if_neg hs]
        have hpot2 := collectPot_insert g seen s rest hs
        rcases List.mem_cons.mp hx with rfl | hx
        · exact collectLoop_seen_subset g fuel _ _ (Finset.mem_insert_self x seen)
        · exact ih _ _ (by omega) x (List.mem_append_left _ hx)

/-- With sufficient fuel and a stack covering all pending outputs, the result
is closed under `_outputs`. -/
theorem collectLoop_closed :
    ∀ fuel seen stack, collectPot g seen stack ≤ fuel →
      (∀ a ∈ seen, ∀ b ∈ g.outputs a, b ∈ seen ∨ b ∈ stack) →
      ∀ a ∈ collectLoop g fuel seen stack, ∀ b ∈ g.outputs a,
        b ∈ collectLoop g fuel seen stack := by
  intro fuel
  induction fuel with
  | zero =>
    intro seen stack hpot hinv a ha b hb
    have hstack : stack.length = 0 := by unfold collectPot at hpot; omega
    have hnil : stack = [] := List.length_eq_zero.mp hstack
    subst hnil
    simp only [collectLoop] at ha ⊢
    rcases hinv a ha b hb with h | h
    · exact h
    · cases h
  | succ fuel ih =>
    intro seen stack hpot hinv a ha b hb
    cases stack with
    | nil =>
      simp only [collectLoop] at ha ⊢
      rcases hinv a ha b hb with h | h
      · exact h
      · cases h
    | cons s rest =>
      have hpots : collectPot g seen rest + 1 = collectPot g seen (s :: rest) := by
        unfold collectPot; simp only [List.length_cons]; omega
      by_cases hs : s ∈ seen
      · simp only [collectLoop, if_pos hs] at ha ⊢
        refine ih seen rest (by omega) ?_ a ha b hb
        intro a' ha' b' hb'
        rcases hinv a' ha' b' hb' with h | h
        · exact Or.inl h
        · rcases List.mem_cons.mp h with rfl | h
          · exact Or.inl hs
          · exact Or.inr h
      · simp only [collectLoop, if_neg hs] at ha ⊢
        have hpot2 := collectPot_insert g seen s rest hs
        refine ih _ _ (by omega) ?_ a ha b hb
        intro a' ha' b' hb'
        rcases Finset.mem_insert.mp ha' with rfl | ha'
        · exact Or.inr (List.mem_append_right _ hb')
        · rcases hinv a' ha' b' hb' with h | h
          · exact Or.inl (Finset.mem_insert_of_mem h)
          · rcases List.mem_cons.mp h with rfl | h
            · exact Or.inl (Finset.mem_insert_self _ _)
            · exact Or.inr (List.mem_append_left _ h)

/-- `_collect_graph` computes exactly the set of nodes reachable from the
sources by following `_outputs`. -/
theorem mem_collect_graph (sources : List (Fin n)) (x : Fin n) :
    x ∈ collect_graph g sources ↔ ∃ s ∈ sources, Reaches g s x := by
  constructor
  · intro hx
    rcases collectLoop_sound g _ _ _ x hx with h | h
    · cases h
    · exact h
  · rintro ⟨s, hs, hr⟩
    have hsmem : s ∈ collect_graph g sources :=
      collectLoop_stack_subset g _ _ _ le_rfl s hs
    have hclosed := collectLoop_closed g (collectPot g ∅ sources) ∅ sources
      le_rfl (by intro a ha; cases ha)
    clear hs
    induction hr with
    | refl => exact hsmem
    | tail _ hstep ihv => exact hclosed _ ihv _ hstep

/-- The collected graph is closed under `_outputs`. -/
theorem collect_graph_closed (sources : List (Fin n)) :
    ∀ a ∈ collect_graph g sources, ∀ b ∈ g.outputs a,
      b ∈ collect_graph g sources :=
  collectLoop_closed g _ _ _ le_rfl (by intro a ha; cases ha)

end CollectGraph

/-! ### `Runner._toposort` (runner.py lines 28-42)

Kahn's algorithm: in-degrees are taken from `len(n._inputs)` of the nodes in
the collected graph list, the ready queue is seeded with the zero in-degree
nodes, and each popped node decrements the in-degree of its `_outputs`.
In-degrees are `Int` because Python integers go negative on over-decrement.
If the order is shorter than the vertex list, a `ValueError` is raised. -/

structure KahnState (n : Nat) where
  indeg : Fin n → Int
  q : List (Fin n)
  order : List (Fin n)

/-- Inner `for m in n._outputs` loop of `_toposort`: decrement each output's
in-degree and enqueue it when the count reaches exactly zero. -/
def processOutputs {n : Nat} :
    List (Fin n) → (Fin n → Int) → List (Fin n) → (Fin n → Int) × List (Fin n)
  | [], indeg, q => (indeg, q)
  | m :: rest, indeg, q =>
    let d := indeg m - 1
    processOutputs rest (Function.update indeg m d) (if d = 0 then q ++ [m] else q)

/-- The `while q` loop of `_toposort`, with explicit fuel. -/
def kahnLoop {n : Nat} (g : NodeGraph n) : Nat → KahnState n → KahnState n
  | 0, st => st
  | fuel + 1, st =>
    match st.q with
    | [] => st
    | x :: rest =>
      let step := processOutputs (g.outputs x) st.indeg rest
      kahnLoop g fuel ⟨step.1, step.2, st.order ++ [x]⟩

/-- Sufficient fuel for `kahnLoop` (proved below): the queue length plus the
total positive in-degree strictly decreases at each iteration. -/
def kahnFuel {n : Nat} (g : NodeGraph n) (graphList : List (Fin n)) : Nat :=
  graphList.length + ∑ v : Fin n, (g.inputs v).length

/-- Initial in-degrees: the `indegree` dictionary of `_toposort`, keyed by the
collected graph list. -/
def initIndeg {n : Nat} (g : NodeGraph n) (graphList : List (Fin n)) :
    Fin n → Int :=
  fun v => if v ∈ graphList then ((g.inputs v).length : Int) else 0

/-- `Runner._toposort` on an enumeration `graphList` of the collected graph:
either a topological order of all the vertices, or the `ValueError`. -/
def toposort {n : Nat} (g : NodeGraph n) (graphList : List (Fin n)) :
    Except String (List (Fin n)) :=
  let indeg0 := initIndeg g graphList
  let q0 := graphList.filter (fun v => indeg0 v = 0)
  let final := kahnLoop g (kahnFuel g graphList) ⟨indeg0, q0, []⟩
  if final.order.length = graphList.length then Except.ok final.order
  else Except.error "Graph contains cycles or disconnected nodes"

/-- An edge of the reachable (sub)graph: both endpoints collected. -/
def edgeWithin {n : Nat} (g : NodeGraph n) (G : List (Fin n)) (u v : Fin n) :
    Prop :=
  u ∈ G ∧ v ∈ G ∧ v ∈ g.outputs u

/-- "The reachable graph is acyclic": no vertex of the collected graph lies on
a directed cycle made of collected vertices. -/
def acyclicWithin {n : Nat} (g : NodeGraph n) (G : List (Fin n)) : Prop :=
  ∀ v : Fin n, ¬ Relation.TransGen (edgeWithin g G) v v

section KahnLemmas

variable {n : Nat}

theorem count_cons_int (m v : Fin n) (l : List (Fin n)) :
    (((m :: l).count v : Int)) = (l.count v : Int) + (if v = m then 1 else 0) := by
  by_cases h : v = m
  · subst h; simp [List.count_cons]
  · simp [List.count_cons, h]

theorem sum_count_univ (l : List (Fin n)) :
    ∑ v : Fin n, l.count v = l.length := by
  induction l with
  | nil => simp
  | cons x xs ih =>
    have h : ∀ v : Fin n, (x :: xs).count v = xs.count v + if v = x then 1 else 0 := by
      intro v
      by_cases hv : v = x
      · subst hv; simp [List.count_cons]
      · simp [List.count_cons, hv]
    simp only [h]
    rw [Finset.sum_add_distrib, ih, Finset.sum_ite_eq' Finset.univ x fun _ => 1]
    simp

/-- Total weight of the in-edges of `v` accounted for by the nodes of `l`
(with multiplicity), following `_outputs`. -/
def sumCnt (g : NodeGraph n) (l : List (Fin n)) (v : Fin n) : Nat :=
  (l.map fun u => (g.outputs u).count v).sum

theorem sumCnt_nil (g : NodeGraph n) (v : Fin n) : sumCnt g [] v = 0 := rfl

theorem sumCnt_cons (g : NodeGraph n) (u : Fin n) (l : List (Fin n)) (v : Fin n) :
    sumCnt g (u :: l) v = (g.outputs u).count v + sumCnt g l v := rfl

theorem sumCnt_append_single (g : NodeGraph n) (l : List (Fin n)) (x v : Fin n) :
    sumCnt g (l ++ [x]) v = sumCnt g l v + (g.outputs x).count v := by
  simp [sumCnt]

theorem sumCnt_eq_finset_sum (g : NodeGraph n) (l : List (Fin n))
    (hl : l.Nodup) (v : Fin n) :
    sumCnt g l v = ∑ u ∈ l.toFinset, (g.outputs u).count v :=
  (List.sum_toFinset _ hl).symm

/-- On a duplicate-free list, the accounted in-degree never exceeds
`len(v._inputs)` (uses the `connect` symmetry). -/
theorem sumCnt_le_inputs (g : NodeGraph n) (hec : edgeConsistent g)
    (l : List (Fin n)) (hl : l.Nodup) (v : Fin n) :
    sumCnt g l v ≤ (g.inputs v).length := by
  rw [sumCnt_eq_finset_sum g l hl v]
  calc ∑ u ∈ l.toFinset, (g.outputs u).count v
      ≤ ∑ u : Fin n, (g.outputs u).count v :=
        Finset.sum_le_sum_of_subset (Finset.subset_univ _)
    _ = ∑ u : Fin n, (g.inputs v).count u := by
        refine Finset.sum_congr rfl fun u _ => hec u v
    _ = (g.inputs v).length := sum_count_univ _

/-- If the accounted in-degree of `v` is already full, every input of `v`
appears in the list. -/
theorem inputs_covered (g : NodeGraph n) (hec : edgeConsistent g)
    (ord : List (Fin n)) (hnd : ord.Nodup) (v : Fin n)
    (hfull : (g.inputs v).length ≤ sumCnt g ord v) :
    ∀ u ∈ g.inputs v, u ∈ ord := by
  intro u hu
  by_contra hnot
  have h1 : (u :: ord).Nodup := List.nodup_cons.mpr ⟨hnot, hnd⟩
  have h2 := sumCnt_le_inputs g hec (u :: ord) h1 v
  rw [sumCnt_cons] at h2
  have h3 : 0 < (g.outputs u).count v := by
    rw [hec u v]
    exact List.count_pos_iff.mpr hu
  omega

/-- Conversely, if every input of `v` appears in a duplicate-free list, the
accounted in-degree is full. -/
theorem sumCnt_full (g : NodeGraph n) (hec : edgeConsistent g)
    (ord : List (Fin n)) (hnd : ord.Nodup) (v : Fin n)
    (hcov : ∀ u ∈ g.inputs v, u ∈ ord) :
    sumCnt g ord v = (g.inputs v).length := by
  rw [sumCnt_eq_finset_sum g ord hnd v]
  have h2 : ∑ u ∈ ord.toFinset, (g.outputs u).count v
      = ∑ u : Fin n, (g.outputs u).count v := by
    refine Finset.sum_subset (Finset.subset_univ _) ?_
    intro u _ hu
    rw [hec u v]
    refine List.count_eq_zero.mpr fun hmem => hu ?_
    exact List.mem_toFinset.mpr (hcov u hmem)
  rw [h2]
  calc ∑ u : Fin n, (g.outputs u).count v
      = ∑ u : Fin n, (g.inputs v).count u :=
        Finset.sum_congr rfl fun u _ => hec u v
    _ = (g.inputs v).length := sum_count_univ _

theorem processOutputs_indeg :
    ∀ (outs : List (Fin n)) (indeg : Fin n → Int) (q : List (Fin n)) (v : Fin n),
      (processOutputs outs indeg q).1 v = indeg v - (outs.count v : Int) := by
  intro outs
  induction outs with
  | nil => intro indeg q v; simp [processOutputs]
  | cons m rest ih =>
    intro indeg q v
    simp only [processOutputs]
    rw [ih, count_cons_int]
    by_cases h : v = m
    · subst h; rw [Function.update_same]; omega
    · rw [Function.update_apply, if_neg h, if_neg h]; ring

theorem processOutputs_mem :
    ∀ (outs : List (Fin n)) (indeg : Fin n → Int) (q : List (Fin n)) (v : Fin n),
      v ∈ (processOutputs outs indeg q).2 ↔
        v ∈ q ∨ (1 ≤ indeg v ∧ indeg v ≤ (outs.count v : Int)) := by
  intro outs
  induction outs with
  | nil =>
    intro indeg q v
    simp only [processOutputs, List.count_nil, Nat.cast_zero]
    constructor
    · exact Or.inl
    · rintro (h | ⟨h1, h2⟩)
      · exact h
      · omega
  | cons m rest ih =>
    intro indeg q v
    simp only [processOutputs]
    rw [ih, count_cons_int]
    by_cases h : v = m
    · subst h
      rw [Function.update_same, if_pos rfl]
      by_cases hd : indeg v - 1 = 0
      · rw [if_pos hd]
        simp only [List.mem_append, List.mem_singleton]
        constructor
        · intro _; right; constructor <;> omega
        · intro _; left; right; trivial
      · rw [if_neg hd]
        constructor
        · rintro (hq | ⟨h1, h2⟩)
          · exact Or.inl hq
          · right; constructor <;> omega
        · rintro (hq | ⟨h1, h2⟩)
          · exact Or.inl hq
          · right; constructor <;> omega
    · rw [Function.update_apply, if_neg h, if_neg h, add_zero]
      by_cases hd : indeg m - 1 = 0
      · rw [if_pos hd]
        simp [List.mem_append, h]
      · rw [if_neg hd]

/-- The decrement loop enqueues a node at most once, and only nodes that are
not already waiting. -/
theorem processOutputs_nodup :
    ∀ (outs : List (Fin n)) (indeg : Fin n → Int) (q : List (Fin n)),
      q.Nodup →
      (∀ v, 1 ≤ indeg v → indeg v ≤ (outs.count v : Int) → v ∉ q) →
      (processOutputs outs indeg q).2.Nodup := by
  intro outs
  induction outs with
  | nil => intro indeg q hq _; exact hq
  | cons m rest ih =>
    intro indeg q hq hcond
    simp only [processOutputs]
    have hcnt : ((rest.count m : Int)) + 1 = (((m :: rest).count m : Int)) := by
      rw [count_cons_int]; simp
    by_cases hd : indeg m - 1 = 0
    · rw [if_pos hd]
      have hm : m ∉ q := by
        refine hcond m (by omega) ?_
        rw [← hcnt]; omega
      refine ih _ _ ?_ ?_
      · simp [List.nodup_append, hq, hm]
      · intro v h1 h2
        by_cases hv : v = m
        · subst hv; rw [Function.update_same] at h1; omega
        · rw [Function.update_apply, if_neg hv] at h1 h2
          have hvq := hcond v h1 (by rw [count_cons_int, if_neg hv]; omega)
          simp only [List.mem_append, List.mem_singleton]
          rintro (h | rfl)
          · exact hvq h
          · exact hv rfl
    · rw [if_neg hd]
      refine ih _ _ hq ?_
      intro v h1 h2
      by_cases hv : v = m
      · subst hv
        rw [Function.update_same] at h1 h2
        refine hcond v (by omega) ?_
        rw [← hcnt]; omega
      · rw [Function.update_apply, if_neg hv] at h1 h2
        refine hcond v h1 ?_
        rw [count_cons_int, if_neg hv]; omega

/-- Queue length plus total positive in-degree never grows while processing
the outputs of a popped node. -/
theorem processOutputs_measure :
    ∀ (outs : List (Fin n)) (indeg : Fin n → Int) (q : List (Fin n)),
      (processOutputs outs indeg q).2.length
          + ∑ v : Fin n, ((processOutputs outs indeg q).1 v).toNat
        ≤ q.length + ∑ v : Fin n, (indeg v).toNat := by
  intro outs
  induction outs with
  | nil => intro indeg q; simp [processOutputs]
  | cons m rest ih =>
    intro indeg q
    simp only [processOutputs]
    refine le_trans (ih _ _) ?_
    have hmem : m ∈ (Finset.univ : Finset (Fin n)) := Finset.mem_univ m
    have hpt : ∀ v : Fin n, ((Function.update indeg m (indeg m - 1)) v).toNat
        = Function.update (fun x => (indeg x).toNat) m ((indeg m - 1).toNat) v := by
      intro v
      by_cases hv : v = m
      · subst hv; simp
      · simp [Function.update_apply, hv]
    have hupd : ∑ v : Fin n, ((Function.update indeg m (indeg m - 1)) v).toNat
        = (indeg m - 1).toNat + ∑ v ∈ Finset.univ.erase m, (indeg v).toNat := by
      simp only [hpt]
      rw [Finset.sum_update_of_mem hmem, Finset.sdiff_singleton_eq_erase]
    have hbase : ∑ v : Fin n, (indeg v).toNat
        = (indeg m).toNat + ∑ v ∈ Finset.univ.erase m, (indeg v).toNat :=
      (Finset.add_sum_erase _ (fun v => (indeg v).toNat) hmem).symm
    by_cases hd : indeg m - 1 = 0
    · rw [if_pos hd]
      simp only [List.length_append, List.length_singleton]
      rw [hupd, hbase]
      omega
    · rw [if_neg hd, hupd, hbase]
      omega

end KahnLemmas

/-- Invariant of the `_toposort` loop, relative to the graph `g` and the
collected vertex list `G`. -/
structure KahnInv {n : Nat} (g : NodeGraph n) (G : List (Fin n))
    (st : KahnState n) : Prop where
  nd : (st.order ++ st.q).Nodup
  sub_order : ∀ v ∈ st.order, v ∈ G
  sub_q : ∀ v ∈ st.q, v ∈ G
  deg : ∀ v ∈ G,
    st.indeg v = ((g.inputs v).length : Int) - (sumCnt g st.order v : Int)
  deg_zero : ∀ v ∈ G, v ∈ st.order ∨ v ∈ st.q → st.indeg v = 0
  deg_pos : ∀ v ∈ G, v ∉ st.order → v ∉ st.q → 0 < st.indeg v
  sorted : ∀ pre v post, st.order = pre ++ v :: post → ∀ u ∈ g.inputs v, u ∈ pre

/-- The computed order "places every node after all of its inputs". -/
def topoOrdered {n : Nat} (g : NodeGraph n) (order : List (Fin n)) : Prop :=
  ∀ pre v post, order = pre ++ v :: post → ∀ u ∈ g.inputs v, u ∈ pre

section KahnInvariant

variable {n : Nat} {g : NodeGraph n} {G : List (Fin n)} {st : KahnState n}

/-- A finished or waiting node has all of its inputs already in the order. -/
theorem KahnInv.completed_covered (hec : edgeConsistent g)
    (hinv : KahnInv g G st) {v : Fin n} (hv : v ∈ st.order ∨ v ∈ st.q) :
    ∀ u ∈ g.inputs v, u ∈ st.order := by
  have hvG : v ∈ G := by
    rcases hv with h | h
    · exact hinv.sub_order v h
    · exact hinv.sub_q v h
  have h0 : st.indeg v = 0 := hinv.deg_zero v hvG hv
  have hdeg := hinv.deg v hvG
  have hnd : st.order.Nodup := hinv.nd.of_append_left
  have hle := sumCnt_le_inputs g hec st.order hnd v
  refine inputs_covered g hec st.order hnd v ?_
  omega

/-- No popped or waiting node has an in-edge from a still-waiting node. -/
theorem KahnInv.cnt_zero (hec : edgeConsistent g) (hinv : KahnInv g G st)
    {x : Fin n} (hx : x ∈ st.q) {v : Fin n}
    (hv : v ∈ st.order ∨ v ∈ st.q) : (g.outputs x).count v = 0 := by
  by_contra hpos
  have hxin : x ∈ g.inputs v := by
    have : 0 < (g.inputs v).count x := by rw [← hec x v]; omega
    exact List.count_pos_iff.mp this
  have hxord : x ∈ st.order := hinv.completed_covered hec hv x hxin
  exact (List.disjoint_of_nodup_append hinv.nd) hxord hx

/-- One iteration of the `while q` loop preserves the invariant. -/
theorem kahnStep_inv (g : NodeGraph n) (G : List (Fin n))
    (hec : edgeConsistent g)
    (hout : ∀ v ∈ G, ∀ m ∈ g.outputs v, m ∈ G)
    (st : KahnState n) (hinv : KahnInv g G st)
    (x : Fin n) (rest : List (Fin n)) (hq : st.q = x :: rest) :
    KahnInv g G
      ⟨(processOutputs (g.outputs x) st.indeg rest).1,
       (processOutputs (g.outputs x) st.indeg rest).2,
       st.order ++ [x]⟩ := by
  have hxq : x ∈ st.q := by rw [hq]; exact List.mem_cons_self _ _
  have hxG : x ∈ G := hinv.sub_q x hxq
  have hdisj := List.disjoint_of_nodup_append hinv.nd
  have horder_nd : st.order.Nodup := hinv.nd.of_append_left
  have hq_nd : st.q.Nodup := hinv.nd.of_append_right
  have hxnord : x ∉ st.order := fun hmem => hdisj hmem hxq
  have hrest_nd : rest.Nodup := by rw [hq] at hq_nd; exact hq_nd.of_cons
  have hxnrest : x ∉ rest := by
    rw [hq] at hq_nd; exact (List.nodup_cons.mp hq_nd).1
  have hrest_q : ∀ v ∈ rest, v ∈ st.q := by
    intro v hv; rw [hq]; exact List.mem_cons_of_mem _ hv
  have hcovx : ∀ u ∈ g.inputs x, u ∈ st.order :=
    hinv.completed_covered hec (Or.inr hxq)
  have hPO1 := fun v => processOutputs_indeg (g.outputs x) st.indeg rest v
  have hPOmem := fun v => processOutputs_mem (g.outputs x) st.indeg rest v
  -- a node enqueued by this step lies among the outputs of x (hence in G)
  have hnewG : ∀ v : Fin n, 1 ≤ st.indeg v →
      st.indeg v ≤ (((g.outputs x).count v : Int)) → v ∈ G := by
    intro v h1 h2
    have : 0 < (g.outputs x).count v := by omega
    exact hout x hxG v (List.count_pos_iff.mp this)
  -- a node enqueued by this step had its in-degree met exactly
  have hnew_exact : ∀ v : Fin n, 1 ≤ st.indeg v →
      st.indeg v ≤ (((g.outputs x).count v : Int)) →
      st.indeg v = (((g.outputs x).count v : Int)) := by
    intro v h1 h2
    have hvG : v ∈ G := hnewG v h1 h2
    have hdeg := hinv.deg v hvG
    have hxord_nd : (x :: st.order).Nodup := List.nodup_cons.mpr ⟨hxnord, horder_nd⟩
    have hle := sumCnt_le_inputs g hec (x :: st.order) hxord_nd v
    rw [sumCnt_cons] at hle
    omega
  refine ⟨?_, ?_, ?_, ?_, ?_, ?_, ?_⟩
  all_goals dsimp only
  · -- nodup
    rw [List.nodup_append]
    refine ⟨?_, ?_, ?_⟩
    · rw [List.nodup_append]
      refine ⟨horder_nd, List.nodup_singleton x, ?_⟩
      intro a ha hb
      rw [List.mem_singleton] at hb
      subst hb
      exact hxnord ha
    · refine processOutputs_nodup _ _ _ hrest_nd ?_
      intro v h1 h2 hvrest
      have := hinv.deg_zero v (hinv.sub_q v (hrest_q v hvrest))
        (Or.inr (hrest_q v hvrest))
      omega
    · intro a ha hb
      rw [hPOmem a] at hb
      rcases hb with hb | ⟨h1, h2⟩
      · rcases List.mem_append.mp ha with ha | ha
        · exact hdisj ha (hrest_q a hb)
        · rw [List.mem_singleton] at ha; subst ha; exact hxnrest hb
      · have haG : a ∈ G := hnewG a h1 h2
        have : st.indeg a = 0 := by
          refine hinv.deg_zero a haG ?_
          rcases List.mem_append.mp ha with ha | ha
          · exact Or.inl ha
          · rw [List.mem_singleton] at ha; subst ha; exact Or.inr hxq
        omega
  · -- sub_order
    intro v hv
    rcases List.mem_append.mp hv with hv | hv
    · exact hinv.sub_order v hv
    · rw [List.mem_singleton] at hv; subst hv; exact hxG
  · -- sub_q
    intro v hv
    rw [hPOmem v] at hv
    rcases hv with hv | ⟨h1, h2⟩
    · exact hinv.sub_q v (hrest_q v hv)
    · exact hnewG v h1 h2
  · -- deg
    intro v hvG
    rw [hPO1 v, hinv.deg v hvG, sumCnt_append_single]
    push_cast
    ring
  · -- deg_zero
    intro v hvG hv
    rw [hPO1 v]
    rcases hv with hv | hv
    · rcases List.mem_append.mp hv with hv | hv
      · rw [hinv.deg_zero v hvG (Or.inl hv),
          hinv.cnt_zero hec hxq (Or.inl hv)]
        simp
      · rw [List.mem_singleton] at hv
        subst hv
        rw [hinv.deg_zero v hvG (Or.inr hxq),
          hinv.cnt_zero hec hxq (Or.inr hxq)]
        simp
    · rw [hPOmem v] at hv
      rcases hv with hv | ⟨h1, h2⟩
      · rw [hinv.deg_zero v hvG (Or.inr (hrest_q v hv)),
          hinv.cnt_zero hec hxq (Or.inr (hrest_q v hv))]
        simp
      · have := hnew_exact v h1 h2
        omega
  · -- deg_pos
    intro v hvG hvo hvq
    rw [hPO1 v]
    have hvord : v ∉ st.order := fun h => hvo (List.mem_append_left _ h)
    have hvx : v ≠ x := by
      intro h
      subst h
      exact hvo (List.mem_append_right _ (List.mem_singleton_self v))
    have hvrest : v ∉ rest := by
      intro h
      exact hvq ((hPOmem v).mpr (Or.inl h))
    have hvq' : v ∉ st.q := by
      rw [hq]
      intro h
      rcases List.mem_cons.mp h with h | h
      · exact hvx h
      · exact hvrest h
    have hpos := hinv.deg_pos v hvG hvord hvq'
    have hnotnew : ¬ (1 ≤ st.indeg v ∧
        st.indeg v ≤ (((g.outputs x).count v : Int))) := by
      intro hcond
      exact hvq ((hPOmem v).mpr (Or.inr hcond))
    omega
  · -- sorted
    intro pre v post heq u hu
    rcases List.append_eq_append_iff.mp heq with ⟨a', ha1, ha2⟩ | ⟨c', hc1, hc2⟩
    · cases a' with
      | nil =>
        simp only [List.nil_append] at ha2
        injection ha2 with hv hp
        subst hv
        rw [ha1, List.append_nil]
        exact hcovx u hu
      | cons b bs =>
        have := congrArg List.length ha2
        simp at this
    · cases c' with
      | nil =>
        rw [List.append_nil] at hc1
        simp only [List.nil_append] at hc2
        have hv : v = x := List.head_eq_of_cons_eq hc2
        subst hv
        rw [← hc1]
        exact hcovx u hu
      | cons w c'' =>
        have hv : v = w := List.head_eq_of_cons_eq hc2
        subst hv
        exact hinv.sorted pre v c'' hc1 u hu

end KahnInvariant

section KahnLoop

variable {n : Nat}

/-- The loop preserves the invariant for any amount of fuel. -/
theorem kahnLoop_inv (g : NodeGraph n) (G : List (Fin n))
    (hec : edgeConsistent g)
    (hout : ∀ v ∈ G, ∀ m ∈ g.outputs v, m ∈ G) :
    ∀ (fuel : Nat) (st : KahnState n), KahnInv g G st →
      KahnInv g G (kahnLoop g fuel st) := by
  intro fuel
  induction fuel with
  | zero => intro st h; exact h
  | succ fuel ih =>
    intro st h
    rcases hq : st.q with _ | ⟨x, rest⟩
    · simp only [kahnLoop, hq]
      exact h
    · simp only [kahnLoop, hq]
      exact ih _ (kahnStep_inv g G hec hout st h x rest hq)

/-- With enough fuel the loop drains its queue completely. -/
theorem kahnLoop_drains (g : NodeGraph n) :
    ∀ (fuel : Nat) (st : KahnState n),
      st.q.length + ∑ v : Fin n, (st.indeg v).toNat ≤ fuel →
      (kahnLoop g fuel st).q = [] := by
  intro fuel
  induction fuel with
  | zero =>
    intro st hm
    have : st.q.length = 0 := by omega
    simpa [kahnLoop] using List.length_eq_zero.mp this
  | succ fuel ih =>
    intro st hm
    rcases hq : st.q with _ | ⟨x, rest⟩
    · simp only [kahnLoop, hq]
    · simp only [kahnLoop, hq]
      refine ih _ ?_
      have hmeas := processOutputs_measure (g.outputs x) st.indeg rest
      have hlen : st.q.length = rest.length + 1 := by rw [hq]; rfl
      dsimp only
      omega

/-- The fuel chosen by `toposort` covers the initial measure. -/
theorem kahnFuel_enough (g : NodeGraph n) (G : List (Fin n)) :
    (G.filter (fun v => initIndeg g G v = 0)).length
        + ∑ v : Fin n, (initIndeg g G v).toNat ≤ kahnFuel g G := by
  unfold kahnFuel
  have h1 : (G.filter (fun v => initIndeg g G v = 0)).length ≤ G.length :=
    List.length_filter_le _ _
  have h2 : ∀ v : Fin n, (initIndeg g G v).toNat ≤ (g.inputs v).length := by
    intro v
    unfold initIndeg
    by_cases hv : v ∈ G <;> simp [hv]
  have h3 : ∑ v : Fin n, (initIndeg g G v).toNat
      ≤ ∑ v : Fin n, (g.inputs v).length :=
    Finset.sum_le_sum fun v _ => h2 v
  omega

/-- The invariant holds when the loop starts. -/
theorem kahnInit_inv (g : NodeGraph n) (G : List (Fin n)) (hnd : G.Nodup) :
    KahnInv g G
      ⟨initIndeg g G, G.filter (fun v => initIndeg g G v = 0), []⟩ := by
  refine ⟨?_, ?_, ?_, ?_, ?_, ?_, ?_⟩
  all_goals dsimp only
  · simpa using hnd.filter _
  · intro v hv; cases hv
  · intro v hv; exact List.mem_of_mem_filter hv
  · intro v hv
    unfold initIndeg
    rw [if_pos hv, sumCnt_nil]
    simp
  · intro v hv h
    rcases h with h | h
    · cases h
    · have := List.of_mem_filter h
      simpa using this
  · intro v hv hvo hvq
    have hne : ¬ (initIndeg g G v = 0) := by
      intro h0
      exact hvq (List.mem_filter.mpr ⟨hv, by simpa using h0⟩)
    unfold initIndeg at hne ⊢
    rw [if_pos hv] at hne ⊢
    omega
  · intro pre v post h
    have h2 := List.append_eq_nil.mp h.symm
    exact absurd h2.2 (List.cons_ne_nil v post)

end KahnLoop

section Toposort

variable {n : Nat}

instance (g : NodeGraph n) (G : List (Fin n)) (u v : Fin n) :
    Decidable (edgeWithin g G u v) := by
  unfold edgeWithin; infer_instance

instance (g : NodeGraph n) : Decidable (edgeConsistent g) := by
  unfold edgeConsistent; infer_instance

/-- A relation that strictly increases a rank has no transitive cycle. -/
theorem transGen_rank_lt {α : Type} {r : α → α → Prop} {f : α → Nat}
    (h : ∀ a b, r a b → f a < f b) {a b : α}
    (ht : Relation.TransGen r a b) : f a < f b := by
  induction ht with
  | single hs => exact h _ _ hs
  | tail _ hs ih => exact lt_trans ih (h _ _ hs)

/-- First element of a list satisfying a predicate, with its clean prefix. -/
theorem exists_first_mem {α : Type} (P : α → Prop) :
    ∀ l : List α, (∃ v ∈ l, P v) →
      ∃ pre v post, l = pre ++ v :: post ∧ P v ∧ ∀ w ∈ pre, ¬ P w := by
  intro l
  induction l with
  | nil => rintro ⟨v, hv, _⟩; cases hv
  | cons a l ih =>
    intro hex
    by_cases ha : P a
    · exact ⟨[], a, l, rfl, ha, by simp⟩
    · have hex' : ∃ v ∈ l, P v := by
        rcases hex with ⟨v, hv, hPv⟩
        rcases List.mem_cons.mp hv with rfl | hv
        · exact absurd hPv ha
        · exact ⟨v, hv, hPv⟩
      rcases ih hex' with ⟨pre, v, post, heq, hPv, hpre⟩
      refine ⟨a :: pre, v, post, by rw [heq]; rfl, hPv, ?_⟩
      intro w hw
      rcases List.mem_cons.mp hw with rfl | hw
      · exact ha
      · exact hpre w hw

/-- Two duplicate-free lists with one included in the other and equal length
have the same members. -/
theorem mem_of_subset_of_length_eq {l G : List (Fin n)} (hnd_l : l.Nodup)
    (hnd_G : G.Nodup) (hsub : ∀ v ∈ l, v ∈ G) (hlen : l.length = G.length) :
    ∀ y ∈ G, y ∈ l := by
  have hsubF : l.toFinset ⊆ G.toFinset := by
    intro v hv
    exact List.mem_toFinset.mpr (hsub v (List.mem_toFinset.mp hv))
  have hcard_l : l.toFinset.card = l.length := List.toFinset_card_of_nodup hnd_l
  have hcard_G : G.toFinset.card = G.length := List.toFinset_card_of_nodup hnd_G
  have hFeq : l.toFinset = G.toFinset :=
    Finset.eq_of_subset_of_card_le hsubF (by omega)
  intro y hy
  exact List.mem_toFinset.mp (hFeq ▸ List.mem_toFinset.mpr hy)

/-- C2 (amended).  `Runner.__init__` = `_collect_graph` followed by
`_toposort`, with `G` an arbitrary enumeration of the collected set (Python's
`list(seen)` order is unspecified).  Success requires the collected set to be
acyclic AND closed under `_inputs`: a reachable vertex with an in-edge from an
unreachable vertex also fails (see `toposort_stray_input_cex`).  On success
the order lists exactly the collected vertices with every node after all of
its inputs; a cycle among collected vertices, or an in-edge from outside,
deterministically raises the `ValueError`. -/
theorem runner_toposort (g : NodeGraph n) (sources G : List (Fin n))
    (hec : edgeConsistent g)
    (hmem : ∀ x, x ∈ G ↔ x ∈ collect_graph g sources)
    (hnd : G.Nodup) :
    ((∀ v ∈ G, ∀ u ∈ g.inputs v, u ∈ G) → acyclicWithin g G →
      ∃ order, toposort g G = Except.ok order ∧
        (∀ x, x ∈ order ↔ x ∈ G) ∧ order.Nodup ∧ topoOrdered g order) ∧
    ((∃ v ∈ G, Relation.TransGen (edgeWithin g G) v v) →
      toposort g G = Except.error "Graph contains cycles or disconnected nodes") ∧
    ((∃ v ∈ G, ∃ u, u ∉ G ∧ u ∈ g.inputs v) →
      toposort g G = Except.error "Graph contains cycles or disconnected nodes") := by
  have hout : ∀ v ∈ G, ∀ m ∈ g.outputs v, m ∈ G := by
    intro v hv m hm
    rw [hmem] at hv ⊢
    exact collect_graph_closed g sources v hv m hm
  set st0 : KahnState n :=
    ⟨initIndeg g G, G.filter (fun v => initIndeg g G v = 0), []⟩ with hst0
  set final := kahnLoop g (kahnFuel g G) st0 with hfinal
  have hinv : KahnInv g G final :=
    kahnLoop_inv g G hec hout _ _ (kahnInit_inv g G hnd)
  have hqnil : final.q = [] := kahnLoop_drains g _ _ (kahnFuel_enough g G)
  have hord_nd : final.order.Nodup := hinv.nd.of_append_left
  have htopo : toposort g G =
      if final.order.length = G.length then Except.ok final.order
      else Except.error "Graph contains cycles or disconnected nodes" := rfl
  refine ⟨?_, ?_, ?_⟩
  · -- success under the amended hypotheses
    intro hin hacyc
    have hGsub : ∀ y ∈ G, y ∈ final.order := by
      by_contra hex
      push_neg at hex
      obtain ⟨v0, hv0G, hv0no⟩ := hex
      set S : Set (Fin n) := {v | v ∈ G ∧ v ∉ final.order} with hS
      have hSne : S.Nonempty := ⟨v0, hv0G, hv0no⟩
      have hpred : ∀ v ∈ S, ∃ u ∈ S, edgeWithin g G u v := by
        intro v hv
        obtain ⟨hvG, hvno⟩ := hv
        have hpos := hinv.deg_pos v hvG hvno
          (by rw [hqnil]; exact List.not_mem_nil v)
        have hdeg := hinv.deg v hvG
        have hncov : ¬ ∀ u ∈ g.inputs v, u ∈ final.order := by
          intro hcov
          have := sumCnt_full g hec final.order hord_nd v hcov
          omega
        push_neg at hncov
        obtain ⟨u, hu_in, hu_no⟩ := hncov
        have huG : u ∈ G := hin v hvG u hu_in
        refine ⟨u, ⟨huG, hu_no⟩, huG, hvG, ?_⟩
        have hc : 0 < (g.outputs u).count v := by
          rw [hec u v]
          exact List.count_pos_iff.mpr hu_in
        exact List.count_pos_iff.mp hc
      haveI : IsTrans (Fin n) (Relation.TransGen (edgeWithin g G)) :=
        ⟨fun _ _ _ => Relation.TransGen.trans⟩
      haveI : IsIrrefl (Fin n) (Relation.TransGen (edgeWithin g G)) := ⟨hacyc⟩
      have hwf : WellFounded (Relation.TransGen (edgeWithin g G)) :=
        Finite.wellFounded_of_trans_of_irrefl _
      obtain ⟨u, huS, hedge⟩ := hpred (hwf.min S hSne) (hwf.min_mem S hSne)
      exact hwf.not_lt_min S hSne huS (Relation.TransGen.single hedge)
    have hlen : final.order.length = G.length := by
      have hFeq : final.order.toFinset = G.toFinset := by
        ext y
        simp only [List.mem_toFinset]
        exact ⟨fun h => hinv.sub_order y h, fun h => hGsub y h⟩
      calc final.order.length = final.order.toFinset.card :=
            (List.toFinset_card_of_nodup hord_nd).symm
        _ = G.toFinset.card := by rw [hFeq]
        _ = G.length := List.toFinset_card_of_nodup hnd
    refine ⟨final.order, ?_, ?_, hord_nd, hinv.sorted⟩
    · rw [htopo, if_pos hlen]
    · intro x
      exact ⟨fun h => hinv.sub_order x h, fun h => hGsub x h⟩
  · -- a cycle among collected vertices
    rintro ⟨v0, hv0G, hcyc⟩
    have hne : ¬ final.order.length = G.length := by
      intro hlen
      have hGsub := mem_of_subset_of_length_eq hord_nd hnd hinv.sub_order hlen
      obtain ⟨pre, w, post, heq, hPw, hpre⟩ := exists_first_mem
        (fun w => Relation.TransGen (edgeWithin g G) w v0 ∧
          Relation.TransGen (edgeWithin g G) v0 w) final.order
        ⟨v0, hGsub v0 hv0G, hcyc, hcyc⟩
      obtain ⟨u, hru, hedge⟩ := (Relation.TransGen.tail'_iff).mp hPw.2
      have hPu : Relation.TransGen (edgeWithin g G) u v0 ∧
          Relation.TransGen (edgeWithin g G) v0 u := by
        constructor
        · exact Relation.TransGen.trans (Relation.TransGen.single hedge) hPw.1
        · rcases Relation.reflTransGen_iff_eq_or_transGen.mp hru with h | h
          · rw [h]; exact hcyc
          · exact h
      have hu_in : u ∈ g.inputs w := by
        have hc : 0 < (g.inputs w).count u := by
          rw [← hec u w]
          exact List.count_pos_iff.mpr hedge.2.2
        exact List.count_pos_iff.mp hc
      exact hpre u (hinv.sorted pre w post heq u hu_in) hPu
    rw [htopo, if_neg hne]
  · -- an in-edge from outside the collected set
    rintro ⟨v, hvG, u, huG, hu_in⟩
    have hne : ¬ final.order.length = G.length := by
      intro hlen
      have hGsub := mem_of_subset_of_length_eq hord_nd hnd hinv.sub_order hlen
      have hvord : v ∈ final.order := hGsub v hvG
      have hcov := hinv.completed_covered hec (Or.inl hvord)
      exact huG (hinv.sub_order u (hcov u hu_in))
    rw [htopo, if_neg hne]

/-- The spec's diamond graph: node 0 = Source, 1 = A, 2 = B, 3 = Sink, wired
by `connect` as Source → A, Source → B, A → Sink, B → Sink. -/
def diamond : NodeGraph 4 where
  inputs := ![[], [0], [0], [1, 2]]
  outputs := ![[1, 2], [3], [3], []]

/-- Closed witness for `runner_toposort` on the diamond graph. -/
theorem runner_toposort_witness :
    ∃ order, toposort diamond [0, 1, 2, 3] = Except.ok order ∧
      (∀ x, x ∈ order ↔ x ∈ ([0, 1, 2, 3] : List (Fin 4))) ∧ order.Nodup ∧
      topoOrdered diamond order := by
  refine (runner_toposort diamond [0] [0, 1, 2, 3] (by decide) (by decide)
    (by decide)).1 (by decide) ?_
  intro v hv
  have hrank : ∀ a b, edgeWithin diamond [0, 1, 2, 3] a b →
      (a : Nat) < (b : Nat) := by decide
  exact absurd (transGen_rank_lt hrank hv) (lt_irrefl _)

/-- Node 0 is the only source; node 1 is reachable but has a second in-edge
from the unreachable node 2 (`connect(2, 1)` was called, but 2 was never
registered as a source). -/
def strayInput : NodeGraph 3 where
  inputs := ![[], [0, 2], []]
  outputs := ![[1], [], [1]]

/-- C2 counterexample: the reachable graph of `strayInput` from source 0 is
`[0, 1]` with the single edge 0 → 1 — acyclic — yet `_toposort` raises,
because node 1's in-degree counts the edge from the unreachable node 2, which
is never decremented.  So "reachable graph acyclic ⟹ construction succeeds"
is false as stated. -/
theorem toposort_stray_input_cex :
    edgeConsistent strayInput ∧
    (∀ x, x ∈ ([0, 1] : List (Fin 3)) ↔ x ∈ collect_graph strayInput [0]) ∧
    ([0, 1] : List (Fin 3)).Nodup ∧
    acyclicWithin strayInput [0, 1] ∧
    toposort strayInput [0, 1]
      = Except.error "Graph contains cycles or disconnected nodes" := by
  refine ⟨by decide, by decide, by decide, ?_, by rfl⟩
  intro v hv
  have hrank : ∀ a b, edgeWithin strayInput [0, 1] a b →
      (a : Nat) < (b : Nat) := by decide
  exact absurd (transGen_rank_lt hrank hv) (lt_irrefl _)

end Toposort

/-! ## Lazy evaluation (`Runner.run_once` and `Runner._eval_node_chain`)

Node behaviour is abstracted by a family `fwd : Fin n → FramePacket →
FramePacket` of `forward` methods; the packets yielded by `next_packet` are
external input to `run_once`.  The per-node `_cache` dictionaries and the
observable calls (`forward` invocations, sink `consume` deliveries) form the
evaluation state.  `_eval_node_chain` recurses along `_inputs`, so its depth
is bounded by an explicit fuel (`none` = fuel ran out; the Python recursion
is unbounded and its result is never `None` for total `forward`s). -/

/-- Observable node calls of one Runner. -/
inductive Event (n : Nat) where
  | fwd (node : Fin n) (arg : FramePacket) (result : FramePacket)
  | consume (sink : Fin n) (packet : FramePacket)
deriving DecidableEq

/-- Per-node `_cache` dictionaries (node.py line 14) plus the call log. -/
structure EvalState (n : Nat) where
  cache : Fin n → Nat → Option FramePacket
  log : List (Event n)

/-- `Node._set_cache` (node.py 27-28): keyed by the stored packet's id. -/
def setCache {n : Nat} (st : EvalState n) (v : Fin n) (p : FramePacket) :
    EvalState n :=
  { st with cache := fun u f =>
      if u = v ∧ f = p.frame_id then some p else st.cache u f }

def pushLog {n : Nat} (st : EvalState n) (e : Event n) : EvalState n :=
  { st with log := st.log ++ [e] }

/-- Result of threading a packet through a node's `_inputs`. -/
inductive InputsResult
  | exhausted
  | dropped (p : FramePacket)
  | ok (p : FramePacket)

/-- The `for inp in node._inputs` loop of `_eval_node_chain` (runner.py
73-79): each input chain is evaluated with the packet returned by the
previous one; a dropped result short-circuits. -/
def goInputs {n : Nat}
    (ev : Fin n → FramePacket → EvalState n → Option FramePacket × EvalState n) :
    List (Fin n) → FramePacket → EvalState n → InputsResult × EvalState n
  | [], packet, st => (.ok packet, st)
  | inp :: rest, packet, st =>
    match ev inp packet st with
    | (none, st') => (.exhausted, st')
    | (some p, st') =>
      if p.drop_frame then (.dropped p, st') else goInputs ev rest p st'

/-- `Runner._eval_node_chain` (runner.py 67-83): consult the cache first; on
a miss evaluate the inputs, short-circuiting drops (caching the dropped
packet without calling `forward`); otherwise run `forward` and cache. -/
def evalChain {n : Nat} (g : NodeGraph n)
    (fwd : Fin n → FramePacket → FramePacket) :
    Nat → Fin n → FramePacket → EvalState n → Option FramePacket × EvalState n
  | 0, _, _, st => (none, st)
  | fuel + 1, node, packet, st =>
    match st.cache node packet.frame_id with
    | some cached => (some cached, st)
    | none =>
      match goInputs (evalChain g fwd fuel) (g.inputs node) packet st with
      | (.exhausted, st') => (none, st')
      | (.dropped p, st') => (some p, setCache st' node p)
      | (.ok p, st') =>
        (some (fwd node p),
         pushLog (setCache st' node (fwd node p)) (Event.fwd node p (fwd node p)))

/-- The `for sink in self.sinks` loop of `run_once` (runner.py 58-64). -/
def runSinks {n : Nat} (g : NodeGraph n)
    (fwd : Fin n → FramePacket → FramePacket) (fuel : Nat) (p : FramePacket) :
    List (Fin n) → EvalState n → EvalState n
  | [], st => st
  | s :: rest, st =>
    let step := evalChain g fwd fuel s p st
    let st2 :=
      match step.1 with
      | none => step.2
      | some o =>
        if o.drop_frame then step.2 else pushLog step.2 (Event.consume s o)
    runSinks g fwd fuel p rest st2

/-- `Runner.run_once` (runner.py 48-65): `produced` lists the packet each
registered source yielded this tick (`none` = exhausted source); for each
non-dropped packet every sink's chain is evaluated lazily; the returned flag
is `progressed`. -/
def run_once {n : Nat} (g : NodeGraph n)
    (fwd : Fin n → FramePacket → FramePacket) (fuel : Nat) :
    List (Option FramePacket) → List (Fin n) → EvalState n →
      Bool × EvalState n
  | [], _, st => (false, st)
  | none :: rest, sinks, st => run_once g fwd fuel rest sinks st
  | some p :: rest, sinks, st =>
    let st' := if p.drop_frame then st else runSinks g fwd fuel p sinks st
    (true, (run_once g fwd fuel rest sinks st').2)

/-- The evaluation state of a fresh Runner: all caches empty. -/
def emptyEval (n : Nat) : EvalState n := ⟨fun _ _ => none, []⟩

/-- Number of `forward` invocations of node `v` on frame id `f` in a log. -/
def fwdCount {n : Nat} (l : List (Event n)) (v : Fin n) (f : Nat) : Nat :=
  l.countP fun e =>
    match e with
    | .fwd u arg _ => u == v && arg.frame_id == f
    | .consume _ _ => false

section EvalSimp

variable {n : Nat}

@[simp] theorem cache_setCache (st : EvalState n) (v : Fin n) (p : FramePacket)
    (u : Fin n) (f : Nat) :
    (setCache st v p).cache u f
      = if u = v ∧ f = p.frame_id then some p else st.cache u f := rfl

@[simp] theorem log_setCache (st : EvalState n) (v : Fin n) (p : FramePacket) :
    (setCache st v p).log = st.log := rfl

@[simp] theorem cache_pushLog (st : EvalState n) (e : Event n) :
    (pushLog st e).cache = st.cache := rfl

@[simp] theorem log_pushLog (st : EvalState n) (e : Event n) :
    (pushLog st e).log = st.log ++ [e] := rfl

@[simp] theorem fwdCount_nil (v : Fin n) (f : Nat) :
    fwdCount ([] : List (Event n)) v f = 0 := rfl

@[simp] theorem fwdCount_append (l1 l2 : List (Event n)) (v : Fin n) (f : Nat) :
    fwdCount (l1 ++ l2) v f = fwdCount l1 v f + fwdCount l2 v f :=
  List.countP_append _ _ _

@[simp] theorem fwdCount_consume (l : List (Event n)) (s : Fin n)
    (o : FramePacket) (v : Fin n) (f : Nat) :
    fwdCount (l ++ [Event.consume s o]) v f = fwdCount l v f := by
  rw [fwdCount_append]
  simp [fwdCount, List.countP, List.countP.go]

theorem fwdCount_fwd (l : List (Event n)) (u : Fin n) (a r : FramePacket)
    (v : Fin n) (f : Nat) :
    fwdCount (l ++ [Event.fwd u a r]) v f
      = fwdCount l v f + (if u = v ∧ a.frame_id = f then 1 else 0) := by
  rw [fwdCount_append]
  by_cases h : u = v ∧ a.frame_id = f
  · obtain ⟨h1, h2⟩ := h
    subst h1; subst h2
    simp [fwdCount, List.countP, List.countP.go]
  · rw [if_neg h]
    rcases Decidable.not_and_iff_or_not.mp h with h1 | h1
    · have hb : (u == v) = false := beq_eq_false_iff_ne.mpr h1
      simp [fwdCount, List.countP, List.countP.go, hb]
    · have hb : (a.frame_id == f) = false := beq_eq_false_iff_ne.mpr h1
      simp [fwdCount, List.countP, List.countP.go, hb]

end EvalSimp

/-- Once every sink in the list has a cached result for the packet's frame
id, further sink passes only replay caches and deliver `consume`; no new
`forward` happens. -/
theorem runSinks_cached {n : Nat} (g : NodeGraph n)
    (fwd : Fin n → FramePacket → FramePacket) (fu : Nat) (p : FramePacket) :
    ∀ (sinks : List (Fin n)) (st : EvalState n),
      (∀ s ∈ sinks, st.cache s p.frame_id ≠ none) →
      (runSinks g fwd (fu + 1) p sinks st).cache = st.cache ∧
      ∀ v f, fwdCount (runSinks g fwd (fu + 1) p sinks st).log v f
        = fwdCount st.log v f := by
  intro sinks
  induction sinks with
  | nil => intro st _; exact ⟨rfl, fun v f => rfl⟩
  | cons s rest ih =>
    intro st h
    have hs := h s (List.mem_cons_self _ _)
    rcases hc : st.cache s p.frame_id with _ | c
    · exact absurd hc hs
    · have he : evalChain g fwd (fu + 1) s p st = (some c, st) := by
        simp [evalChain, hc]
      simp only [runSinks, he]
      by_cases hd : c.drop_frame
      · rw [if_pos hd]
        exact ih st fun s' hs' => h s' (List.mem_cons_of_mem _ hs')
      · rw [if_neg hd]
        have hcond : ∀ s' ∈ rest,
            (pushLog st (Event.consume s c)).cache s' p.frame_id ≠ none := by
          intro s' hs'
          exact h s' (List.mem_cons_of_mem _ hs')
        obtain ⟨h1, h2⟩ := ih (pushLog st (Event.consume s c)) hcond
        refine ⟨h1, fun v f => ?_⟩
        rw [h2 v f]
        exact fwdCount_consume st.log s c v f

/-- C1.  Exactly-once memoization on the spec's diamond graph
Source → A, B → Sink (`Runner.run_once` + `Runner._eval_node_chain` +
`Node._get_from_cache`/`_set_cache`): with frame-id-preserving, non-dropping
`forward`s and any number `m + 1 ≥ 1` of registered sink requests for the
same chain in one tick, `A.forward` (node 1) and `B.forward` (node 2) each
run exactly once for the produced packet's `frame_id`. -/
theorem memoization_exactly_once
    (fwd : Fin 4 → FramePacket → FramePacket)
    (hfid : ∀ v q, (fwd v q).frame_id = q.frame_id)
    (hdrop : ∀ v q, (fwd v q).drop_frame = q.drop_frame)
    (fuel m : Nat) (p : FramePacket) (hp : p.drop_frame = false) :
    fwdCount (run_once diamond fwd (fuel + 4) [some p]
        (List.replicate (m + 1) 3) (emptyEval 4)).2.log 1 p.frame_id = 1 ∧
    fwdCount (run_once diamond fwd (fuel + 4) [some p]
        (List.replicate (m + 1) 3) (emptyEval 4)).2.log 2 p.frame_id = 1 := by
  have hcached : ∀ (st : EvalState 4),
      (∀ s ∈ List.replicate m (3 : Fin 4), st.cache s p.frame_id ≠ none) →
      ∀ v f, fwdCount (runSinks diamond fwd ((fuel + 3) + 1) p
        (List.replicate m 3) st).log v f = fwdCount st.log v f :=
    fun st h => (runSinks_cached diamond fwd (fuel + 3) p _ st h).2
  have hin0 : diamond.inputs 0 = [] := rfl
  have hin1 : diamond.inputs 1 = [0] := rfl
  have hin2 : diamond.inputs 2 = [0] := rfl
  have hin3 : diamond.inputs 3 = [1, 2] := rfl
  have e0 : evalChain diamond fwd (fuel + 2) 0 p (emptyEval 4)
      = (some (fwd 0 p),
         pushLog (setCache (emptyEval 4) 0 (fwd 0 p)) (Event.fwd 0 p (fwd 0 p))) := by
    simp [evalChain, goInputs, hin0, emptyEval]
  have e1 : evalChain diamond fwd (fuel + 3) 1 p (emptyEval 4)
      = (some (fwd 1 (fwd 0 p)),
         pushLog (setCache (pushLog (setCache (emptyEval 4) 0 (fwd 0 p))
             (Event.fwd 0 p (fwd 0 p))) 1 (fwd 1 (fwd 0 p)))
           (Event.fwd 1 (fwd 0 p) (fwd 1 (fwd 0 p)))) := by
    have : fuel + 3 = (fuel + 2) + 1 := rfl
    rw [this]
    simp [evalChain, goInputs, hin1, e0, hdrop, hp, emptyEval]
  have e2 : evalChain diamond fwd (fuel + 3) 2 (fwd 1 (fwd 0 p))
        (pushLog (setCache (pushLog (setCache (emptyEval 4) 0 (fwd 0 p))
             (Event.fwd 0 p (fwd 0 p))) 1 (fwd 1 (fwd 0 p)))
           (Event.fwd 1 (fwd 0 p) (fwd 1 (fwd 0 p))))
      = (some (fwd 2 (fwd 0 p)),
         pushLog (setCache (pushLog (setCache (pushLog (setCache (emptyEval 4) 0
             (fwd 0 p)) (Event.fwd 0 p (fwd 0 p))) 1 (fwd 1 (fwd 0 p)))
             (Event.fwd 1 (fwd 0 p) (fwd 1 (fwd 0 p)))) 2 (fwd 2 (fwd 0 p)))
           (Event.fwd 2 (fwd 0 p) (fwd 2 (fwd 0 p)))) := by
    have h3 : fuel + 3 = (fuel + 2) + 1 := rfl
    rw [h3]
    simp [evalChain, goInputs, hin2, hfid, hdrop, hp, emptyEval]
  have e3 : evalChain diamond fwd (fuel + 4) 3 p (emptyEval 4)
      = (some (fwd 3 (fwd 2 (fwd 0 p))),
         pushLog (setCache (pushLog (setCache (pushLog (setCache (pushLog
             (setCache (emptyEval 4) 0 (fwd 0 p)) (Event.fwd 0 p (fwd 0 p))) 1
             (fwd 1 (fwd 0 p))) (Event.fwd 1 (fwd 0 p) (fwd 1 (fwd 0 p)))) 2
             (fwd 2 (fwd 0 p))) (Event.fwd 2 (fwd 0 p) (fwd 2 (fwd 0 p)))) 3
             (fwd 3 (fwd 2 (fwd 0 p))))
           (Event.fwd 3 (fwd 2 (fwd 0 p)) (fwd 3 (fwd 2 (fwd 0 p))))) := by
    have h4 : fuel + 4 = (fuel + 3) + 1 := rfl
    rw [h4]
    simp [evalChain, goInputs, hin3, e1, e2, hfid, hdrop, hp, emptyEval]
  -- run_once reduces to a single runSinks pass over the sinks
  have hro : run_once diamond fwd (fuel + 4) [some p]
      (List.replicate (m + 1) (3 : Fin 4)) (emptyEval 4)
      = (true, runSinks diamond fwd (fuel + 4) p
          (List.replicate (m + 1) 3) (emptyEval 4)) := by
    simp [run_once, hp]
  have hdrop3 : (fwd 3 (fwd 2 (fwd 0 p))).drop_frame = false := by
    rw [hdrop, hdrop, hdrop, hp]
  have hrepl : List.replicate (m + 1) (3 : Fin 4)
      = 3 :: List.replicate m 3 := List.replicate_succ _ _
  have hfirst : runSinks diamond fwd (fuel + 4) p
      (List.replicate (m + 1) 3) (emptyEval 4)
      = runSinks diamond fwd (fuel + 4) p (List.replicate m 3)
          (pushLog (evalChain diamond fwd (fuel + 4) 3 p (emptyEval 4)).2
            (Event.consume 3 (fwd 3 (fwd 2 (fwd 0 p))))) := by
    rw [hrepl]
    simp only [runSinks, e3]
    rw [if_neg (by rw [hdrop3]; exact Bool.false_ne_true)]
  have hcond : ∀ s ∈ List.replicate m (3 : Fin 4),
      (pushLog (evalChain diamond fwd (fuel + 4) 3 p (emptyEval 4)).2
        (Event.consume 3 (fwd 3 (fwd 2 (fwd 0 p))))).cache s p.frame_id ≠ none := by
    intro s hs
    rw [List.eq_of_mem_replicate hs]
    rw [e3]
    simp [hfid]
  have hfuel : fuel + 4 = (fuel + 3) + 1 := rfl
  rw [hro]
  simp only []
  rw [hfirst, hfuel]
  constructor
  · rw [hcached _ hcond 1 p.frame_id]
    rw [e3]
    simp only [log_pushLog, log_setCache]
    rw [fwdCount_consume]
    simp [fwdCount, List.countP, List.countP.go, hfid, emptyEval]
  · rw [hcached _ hcond 2 p.frame_id]
    rw [e3]
    simp only [log_pushLog, log_setCache]
    rw [fwdCount_consume]
    simp [fwdCount, List.countP, List.countP.go, hfid, emptyEval]

/-- Closed witness for `memoization_exactly_once`: identity forwards, two
registered sinks, frame id 7. -/
theorem memoization_exactly_once_witness :
    fwdCount (run_once diamond (fun _ q => q) 4 [some
        { frame_id := 7, timestamp := 0, image := 0, detections := 0,
          regions_of_interest := 0, ocr_results := 0, drop_frame := false }]
        (List.replicate 2 3) (emptyEval 4)).2.log 1 7 = 1 ∧
    fwdCount (run_once diamond (fun _ q => q) 4 [some
        { frame_id := 7, timestamp := 0, image := 0, detections := 0,
          regions_of_interest := 0, ocr_results := 0, drop_frame := false }]
        (List.replicate 2 3) (emptyEval 4)).2.log 2 7 = 1 :=
  memoization_exactly_once (fun _ q => q) (fun _ _ => rfl) (fun _ _ => rfl)
    0 1 _ rfl

/-! ## Fan-in evaluation order (implicit behaviour of `_eval_node_chain`) -/

/-- Cache well-formedness: every memoized packet is stored under its own
frame id (what `_set_cache` guarantees from an empty cache). -/
def cacheWF {n : Nat} (st : EvalState n) : Prop :=
  ∀ (v : Fin n) (f : Nat) (pk : FramePacket), st.cache v f = some pk →
    pk.frame_id = f

/-- A successful chain evaluation leaves its result in the node's cache. -/
theorem evalChain_result_cached {n : Nat} (g : NodeGraph n)
    (fwd : Fin n → FramePacket → FramePacket) (fuel : Nat) (v : Fin n)
    (p r : FramePacket) (st st' : EvalState n) (hwf : cacheWF st)
    (h : evalChain g fwd fuel v p st = (some r, st')) :
    st'.cache v r.frame_id = some r := by
  cases fuel with
  | zero => simp [evalChain] at h
  | succ fuel =>
    rcases hc : st.cache v p.frame_id with _ | c
    · rcases hgo : goInputs (evalChain g fwd fuel) (g.inputs v) p st
        with ⟨res, stg⟩
      cases res with
      | exhausted => simp [evalChain, hc, hgo] at h
      | dropped q =>
        simp only [evalChain, hc, hgo] at h
        obtain ⟨h1, h2⟩ := Prod.mk.injEq .. ▸ h
        cases h1
        rw [← h2]
        simp
      | ok q =>
        simp only [evalChain, hc, hgo] at h
        obtain ⟨h1, h2⟩ := Prod.mk.injEq .. ▸ h
        cases h1
        rw [← h2]
        simp
    · simp only [evalChain, hc] at h
      obtain ⟨h1, h2⟩ := Prod.mk.injEq .. ▸ h
      cases h1
      rw [← h2, hwf v p.frame_id r hc]
      exact hc

/-- C9 (implicit).  Fan-in threading in `_eval_node_chain` (runner.py 73-79):
for an uncached node `v` with `_inputs = [a, b]`, input `b`'s chain is
evaluated with the packet `ra` returned by `a`'s chain (not with the original
packet), and `forward` receives only `rb`, the result of the last input's
chain; `a`'s result is cached but not merged into the packet handed to
`forward`. -/
theorem eval_fan_in_threading {n : Nat} (g : NodeGraph n)
    (fwd : Fin n → FramePacket → FramePacket) (fuel : Nat) (v a b : Fin n)
    (p ra rb : FramePacket) (st st1 st2 : EvalState n)
    (hwf : cacheWF st)
    (hin : g.inputs v = [a, b])
    (hmiss : st.cache v p.frame_id = none)
    (hA : evalChain g fwd fuel a p st = (some ra, st1))
    (hAd : ra.drop_frame = false)
    (hB : evalChain g fwd fuel b ra st1 = (some rb, st2))
    (hBd : rb.drop_frame = false) :
    evalChain g fwd (fuel + 1) v p st
      = (some (fwd v rb),
         pushLog (setCache st2 v (fwd v rb)) (Event.fwd v rb (fwd v rb))) ∧
    st1.cache a ra.frame_id = some ra := by
  constructor
  · simp [evalChain, goInputs, hin, hmiss, hA, hAd, hB, hBd]
  · exact evalChain_result_cached g fwd fuel a p ra st st1 hwf hA

/-- A concrete packet used by the closed witnesses. -/
def pkt7 : FramePacket :=
  { frame_id := 7, timestamp := 0, image := 0, detections := 0,
    regions_of_interest := 0, ocr_results := 0, drop_frame := false }

/-- Closed witness for `eval_fan_in_threading` on the diamond's sink node
with identity forwards. -/
theorem eval_fan_in_threading_witness :
    evalChain diamond (fun _ q => q) 3 3 pkt7 (emptyEval 4)
      = (some pkt7,
         pushLog (setCache (evalChain diamond (fun _ q => q) 2 2 pkt7
             (evalChain diamond (fun _ q => q) 2 1 pkt7 (emptyEval 4)).2).2
           3 pkt7) (Event.fwd 3 pkt7 pkt7)) ∧
    (evalChain diamond (fun _ q => q) 2 1 pkt7 (emptyEval 4)).2.cache 1
        pkt7.frame_id = some pkt7 :=
  eval_fan_in_threading diamond (fun _ q => q) 2 3 1 2 pkt7 pkt7 pkt7
    (emptyEval 4) (evalChain diamond (fun _ q => q) 2 1 pkt7 (emptyEval 4)).2
    (evalChain diamond (fun _ q => q) 2 2 pkt7
      (evalChain diamond (fun _ q => q) 2 1 pkt7 (emptyEval 4)).2).2
    (fun v f pk h => by simp [emptyEval] at h)
    rfl rfl rfl rfl rfl rfl

end Dustycam

namespace Dustycam

/-! ## Drop propagation (`run_once` / `_eval_node_chain`) -/

/-- `u` is a direct input of `v` (an edge, following `_inputs`). -/
def inputEdge {n : Nat} (g : NodeGraph n) (u v : Fin n) : Prop := u ∈ g.inputs v

/-- `x` is `a` itself or downstream of `a` (reachable along `_inputs` edges). -/
def DownstreamOf {n : Nat} (g : NodeGraph n) (a x : Fin n) : Prop :=
  Relation.ReflTransGen (inputEdge g) a x

def isFwd {n : Nat} : Event n → Bool
  | .fwd _ _ _ => true
  | .consume _ _ => false

/-- A `forward` call whose result carries `drop_frame = true`. -/
def isDropFwd {n : Nat} : Event n → Bool
  | .fwd _ _ r => r.drop_frame
  | .consume _ _ => false

/-- After a dropped `forward` result, no later `forward` occurs in the log
fragment. -/
def dropStops {n : Nat} (Δ : List (Event n)) : Prop :=
  ∀ l1 e l2, Δ = l1 ++ e :: l2 → isDropFwd e = true → ∀ e2 ∈ l2, isFwd e2 = false

/-- Every downstream memo of `a` for frame `fid` is a dropped packet. -/
def DropBlocked {n : Nat} (g : NodeGraph n) (st : EvalState n) (a : Fin n)
    (fid : Nat) : Prop :=
  ∀ x, DownstreamOf g a x → ∀ pk, st.cache x fid = some pk →
    pk.drop_frame = true

section S1

variable {n : Nat} (g : NodeGraph n) (fwd : Fin n → FramePacket → FramePacket)

/-- Structural facts about one inputs pass: log only grows with `forward`
events of nodes upstream of some input, and cache writes target upstream
nodes only, always storing `some`. -/
theorem goInputs_structure
    (ev : Fin n → FramePacket → EvalState n → Option FramePacket × EvalState n)
    (hev : ∀ (i : Fin n) (p : FramePacket) (st : EvalState n),
      ∃ Δ, (ev i p st).2.log = st.log ++ Δ ∧
        (∀ e ∈ Δ, ∃ x arg rx, e = Event.fwd x arg rx ∧
          Relation.ReflTransGen (inputEdge g) x i) ∧
        (∀ x f, (ev i p st).2.cache x f ≠ st.cache x f →
          Relation.ReflTransGen (inputEdge g) x i ∧
            ∃ q, (ev i p st).2.cache x f = some q)) :
    ∀ (inputs : List (Fin n)) (p : FramePacket) (st : EvalState n),
      ∃ Δ, (goInputs ev inputs p st).2.log = st.log ++ Δ ∧
        (∀ e ∈ Δ, ∃ x arg rx, e = Event.fwd x arg rx ∧
          ∃ i ∈ inputs, Relation.ReflTransGen (inputEdge g) x i) ∧
        (∀ x f, (goInputs ev inputs p st).2.cache x f ≠ st.cache x f →
          (∃ i ∈ inputs, Relation.ReflTransGen (inputEdge g) x i) ∧
            ∃ q, (goInputs ev inputs p st).2.cache x f = some q) := by
  intro inputs
  induction inputs with
  | nil =>
    intro p st
    refine ⟨[], by simp [goInputs], by simp, ?_⟩
    intro x f hx
    exact absurd rfl hx
  | cons i rest ih =>
    intro p st
    obtain ⟨Δ1, hlog1, hev1, hw1⟩ := hev i p st
    rcases hres : ev i p st with ⟨res, st1⟩
    rw [hres] at hlog1 hw1
    dsimp only at hlog1 hw1
    cases res with
    | none =>
      have hgo : goInputs ev (i :: rest) p st = (.exhausted, st1) := by
        simp [goInputs, hres]
      refine ⟨Δ1, by rw [hgo]; exact hlog1, ?_, ?_⟩
      · intro e he
        obtain ⟨x, arg, rx, hfw, hup⟩ := hev1 e he
        exact ⟨x, arg, rx, hfw, i, List.mem_cons_self _ _, hup⟩
      · intro x f hx
        rw [hgo] at hx ⊢
        obtain ⟨hup, q, hq⟩ := hw1 x f hx
        exact ⟨⟨i, List.mem_cons_self _ _, hup⟩, q, hq⟩
    | some q =>
      by_cases hd : q.drop_frame
      · have hgo : goInputs ev (i :: rest) p st = (.dropped q, st1) := by
          simp [goInputs, hres, hd]
        refine ⟨Δ1, by rw [hgo]; exact hlog1, ?_, ?_⟩
        · intro e he
          obtain ⟨x, arg, rx, hfw, hup⟩ := hev1 e he
          exact ⟨x, arg, rx, hfw, i, List.mem_cons_self _ _, hup⟩
        · intro x f hx
          rw [hgo] at hx ⊢
          obtain ⟨hup, q', hq⟩ := hw1 x f hx
          exact ⟨⟨i, List.mem_cons_self _ _, hup⟩, q', hq⟩
      · obtain ⟨Δ2, hlog2, hev2, hw2⟩ := ih q st1
        have hgo : goInputs ev (i :: rest) p st = goInputs ev rest q st1 := by
          simp [goInputs, hres, hd]
        refine ⟨Δ1 ++ Δ2, ?_, ?_, ?_⟩
        · rw [hgo, hlog2, hlog1, List.append_assoc]
        · intro e he
          rcases List.mem_append.mp he with he | he
          · obtain ⟨x, arg, rx, hfw, hup⟩ := hev1 e he
            exact ⟨x, arg, rx, hfw, i, List.mem_cons_self _ _, hup⟩
          · obtain ⟨x, arg, rx, hfw, j, hj, hup⟩ := hev2 e he
            exact ⟨x, arg, rx, hfw, j, List.mem_cons_of_mem _ hj, hup⟩
        · intro x f hx
          rw [hgo] at hx ⊢
          by_cases h2 : (goInputs ev rest q st1).2.cache x f = st1.cache x f
          · have h1 : st1.cache x f ≠ st.cache x f := by
              rw [← h2]; exact hx
            obtain ⟨hup, q', hq⟩ := hw1 x f h1
            exact ⟨⟨i, List.mem_cons_self _ _, hup⟩, q', by rw [h2]; exact hq⟩
          · obtain ⟨⟨j, hj, hup⟩, q', hq⟩ := hw2 x f h2
            exact ⟨⟨j, List.mem_cons_of_mem _ hj, hup⟩, q', hq⟩

/-- Structural facts about one chain evaluation: the log grows by `forward`
events of nodes upstream of the evaluated node, and cache writes target
upstream nodes only, always storing `some`. -/
theorem evalChain_structure :
    ∀ (fuel : Nat) (v : Fin n) (p : FramePacket) (st : EvalState n),
      ∃ Δ, (evalChain g fwd fuel v p st).2.log = st.log ++ Δ ∧
        (∀ e ∈ Δ, ∃ x arg rx, e = Event.fwd x arg rx ∧
          Relation.ReflTransGen (inputEdge g) x v) ∧
        (∀ x f, (evalChain g fwd fuel v p st).2.cache x f ≠ st.cache x f →
          Relation.ReflTransGen (inputEdge g) x v ∧
            ∃ q, (evalChain g fwd fuel v p st).2.cache x f = some q) := by
  intro fuel
  induction fuel with
  | zero =>
    intro v p st
    refine ⟨[], by simp [evalChain], by simp, ?_⟩
    intro x f hx
    exact absurd rfl hx
  | succ fuel ih =>
    intro v p st
    rcases hc : st.cache v p.frame_id with _ | c
    · obtain ⟨Δg, hlogg, hevg, hwg⟩ :=
        goInputs_structure g (evalChain g fwd fuel) ih (g.inputs v) p st
      rcases hgo : goInputs (evalChain g fwd fuel) (g.inputs v) p st
        with ⟨res, stg⟩
      rw [hgo] at hlogg hwg
      dsimp only at hlogg hwg
      have hlift : ∀ x, (∃ i ∈ g.inputs v,
          Relation.ReflTransGen (inputEdge g) x i) →
          Relation.ReflTransGen (inputEdge g) x v := by
        rintro x ⟨i, hi, hup⟩
        exact hup.tail hi
      cases res with
      | exhausted =>
        have he : evalChain g fwd (fuel + 1) v p st = (none, stg) := by
          simp [evalChain, hc, hgo]
        refine ⟨Δg, by rw [he]; exact hlogg, ?_, ?_⟩
        · intro e he'
          obtain ⟨x, arg, rx, hfw, hin⟩ := hevg e he'
          exact ⟨x, arg, rx, hfw, hlift x hin⟩
        · intro x f hx
          rw [he] at hx ⊢
          obtain ⟨hin, hq⟩ := hwg x f hx
          exact ⟨hlift x hin, hq⟩
      | dropped q =>
        have he : evalChain g fwd (fuel + 1) v p st
            = (some q, setCache stg v q) := by
          simp [evalChain, hc, hgo]
        refine ⟨Δg, by rw [he]; simpa using hlogg, ?_, ?_⟩
        · intro e he'
          obtain ⟨x, arg, rx, hfw, hin⟩ := hevg e he'
          exact ⟨x, arg, rx, hfw, hlift x hin⟩
        · intro x f hx
          rw [he] at hx ⊢
          by_cases hcond : x = v ∧ f = q.frame_id
          · obtain ⟨rfl, rfl⟩ := hcond
            exact ⟨Relation.ReflTransGen.refl, _,
              by rw [cache_setCache, if_pos ⟨rfl, rfl⟩]⟩
          · rw [cache_setCache, if_neg hcond] at hx ⊢
            obtain ⟨hin, hq⟩ := hwg x f hx
            exact ⟨hlift x hin, hq⟩
      | ok q =>
        have he : evalChain g fwd (fuel + 1) v p st
            = (some (fwd v q),
               pushLog (setCache stg v (fwd v q))
                 (Event.fwd v q (fwd v q))) := by
          simp [evalChain, hc, hgo]
        refine ⟨Δg ++ [Event.fwd v q (fwd v q)], ?_, ?_, ?_⟩
        · rw [he]
          simp only [log_pushLog, log_setCache, hlogg, List.append_assoc]
        · intro e he'
          rcases List.mem_append.mp he' with he' | he'
          · obtain ⟨x, arg, rx, hfw, hin⟩ := hevg e he'
            exact ⟨x, arg, rx, hfw, hlift x hin⟩
          · rw [List.mem_singleton] at he'
            exact ⟨v, q, fwd v q, he', Relation.ReflTransGen.refl⟩
        · intro x f hx
          rw [he] at hx ⊢
          rw [cache_pushLog] at hx ⊢
          by_cases hcond : x = v ∧ f = (fwd v q).frame_id
          · obtain ⟨rfl, rfl⟩ := hcond
            exact ⟨Relation.ReflTransGen.refl, _,
              by rw [cache_setCache, if_pos ⟨rfl, rfl⟩]⟩
          · rw [cache_setCache, if_neg hcond] at hx ⊢
            obtain ⟨hin, hq⟩ := hwg x f hx
            exact ⟨hlift x hin, hq⟩
    · refine ⟨[], by simp [evalChain, hc], by simp, ?_⟩
      intro x f hx
      simp only [evalChain, hc] at hx
      exact absurd rfl hx

end S1

section S2

variable {n : Nat} (g : NodeGraph n) (fwd : Fin n → FramePacket → FramePacket)

/-- Frame-id discipline of one inputs pass, given it for the recursive
evaluator: caches stay well formed, the threaded packet keeps its frame id,
cells of other frame ids are untouched, and all new `forward` events carry
the packet's frame id. -/
theorem goInputs_fid
    (ev : Fin n → FramePacket → EvalState n → Option FramePacket × EvalState n)
    (hev : ∀ (i : Fin n) (p : FramePacket) (st : EvalState n), cacheWF st →
      cacheWF (ev i p st).2 ∧
      (∀ r, (ev i p st).1 = some r → r.frame_id = p.frame_id) ∧
      (∀ x f, f ≠ p.frame_id → (ev i p st).2.cache x f = st.cache x f) ∧
      (∃ Δ, (ev i p st).2.log = st.log ++ Δ ∧
        ∀ e ∈ Δ, ∀ x arg rx, e = Event.fwd x arg rx →
          arg.frame_id = p.frame_id ∧ rx.frame_id = p.frame_id)) :
    ∀ (inputs : List (Fin n)) (p : FramePacket) (st : EvalState n),
      cacheWF st →
      cacheWF (goInputs ev inputs p st).2 ∧
      (∀ r, (goInputs ev inputs p st).1 = .ok r → r.frame_id = p.frame_id) ∧
      (∀ r, (goInputs ev inputs p st).1 = .dropped r →
        r.frame_id = p.frame_id) ∧
      (∀ x f, f ≠ p.frame_id →
        (goInputs ev inputs p st).2.cache x f = st.cache x f) ∧
      (∃ Δ, (goInputs ev inputs p st).2.log = st.log ++ Δ ∧
        ∀ e ∈ Δ, ∀ x arg rx, e = Event.fwd x arg rx →
          arg.frame_id = p.frame_id ∧ rx.frame_id = p.frame_id) := by
  intro inputs
  induction inputs with
  | nil =>
    intro p st hwf
    refine ⟨hwf, ?_, ?_, fun x f _ => rfl, [], by simp [goInputs], by simp⟩
    · intro r hr
      simp only [goInputs] at hr
      cases hr
      rfl
    · intro r hr
      simp only [goInputs] at hr
      cases hr
  | cons i rest ih =>
    intro p st hwf
    obtain ⟨hwf1, hres1, hcell1, Δ1, hlog1, hevΔ1⟩ := hev i p st hwf
    rcases hres : ev i p st with ⟨res, st1⟩
    rw [hres] at hwf1 hres1 hcell1 hlog1
    dsimp only at hwf1 hres1 hcell1 hlog1
    cases res with
    | none =>
      have hgo : goInputs ev (i :: rest) p st = (.exhausted, st1) := by
        simp [goInputs, hres]
      rw [hgo]
      refine ⟨hwf1, ?_, ?_, hcell1, Δ1, hlog1, hevΔ1⟩
      · intro r hr
        dsimp only at hr
        cases hr
      · intro r hr
        dsimp only at hr
        cases hr
    | some q =>
      have hq : q.frame_id = p.frame_id := hres1 q rfl
      by_cases hd : q.drop_frame
      · have hgo : goInputs ev (i :: rest) p st = (.dropped q, st1) := by
          simp [goInputs, hres, hd]
        rw [hgo]
        refine ⟨hwf1, ?_, ?_, hcell1, Δ1, hlog1, hevΔ1⟩
        · intro r hr
          dsimp only at hr
          cases hr
        · intro r hr
          dsimp only at hr
          cases hr
          exact hq
      · have hgo : goInputs ev (i :: rest) p st = goInputs ev rest q st1 := by
          simp [goInputs, hres, hd]
        obtain ⟨hwf2, hok2, hdr2, hcell2, Δ2, hlog2, hevΔ2⟩ := ih q st1 hwf1
        rw [hgo]
        refine ⟨hwf2, ?_, ?_, ?_, Δ1 ++ Δ2, ?_, ?_⟩
        · intro r hr
          rw [hok2 r hr, hq]
        · intro r hr
          rw [hdr2 r hr, hq]
        · intro x f hf
          rw [hcell2 x f (by rw [hq]; exact hf), hcell1 x f hf]
        · rw [hlog2, hlog1, List.append_assoc]
        · intro e he x arg rx hfw
          rcases List.mem_append.mp he with he | he
          · exact hevΔ1 e he x arg rx hfw
          · obtain ⟨h1, h2⟩ := hevΔ2 e he x arg rx hfw
            rw [h1, h2, hq]
            exact ⟨rfl, rfl⟩

/-- Frame-id discipline of `_eval_node_chain`: with frame-id-preserving
`forward`s and a well formed cache, the result keeps the packet's frame id,
caches stay well formed, cells of other frame ids are untouched, and new
`forward` events carry that frame id. -/
theorem evalChain_fid (hfid : ∀ v q, (fwd v q).frame_id = q.frame_id) :
    ∀ (fuel : Nat) (v : Fin n) (p : FramePacket) (st : EvalState n),
      cacheWF st →
      cacheWF (evalChain g fwd fuel v p st).2 ∧
      (∀ r, (evalChain g fwd fuel v p st).1 = some r →
        r.frame_id = p.frame_id) ∧
      (∀ x f, f ≠ p.frame_id →
        (evalChain g fwd fuel v p st).2.cache x f = st.cache x f) ∧
      (∃ Δ, (evalChain g fwd fuel v p st).2.log = st.log ++ Δ ∧
        ∀ e ∈ Δ, ∀ x arg rx, e = Event.fwd x arg rx →
          arg.frame_id = p.frame_id ∧ rx.frame_id = p.frame_id) := by
  intro fuel
  induction fuel with
  | zero =>
    intro v p st hwf
    refine ⟨hwf, ?_, fun x f _ => rfl, [], by simp [evalChain], by simp⟩
    intro r hr
    dsimp only [evalChain] at hr
    cases hr
  | succ fuel ih =>
    intro v p st hwf
    rcases hc : st.cache v p.frame_id with _ | c
    · obtain ⟨hwfg, hokg, hdrg, hcellg, Δg, hlogg, hevg⟩ :=
        goInputs_fid (evalChain g fwd fuel) ih (g.inputs v) p st hwf
      rcases hgo : goInputs (evalChain g fwd fuel) (g.inputs v) p st
        with ⟨res, stg⟩
      rw [hgo] at hwfg hokg hdrg hcellg hlogg
      dsimp only at hwfg hokg hdrg hcellg hlogg
      cases res with
      | exhausted =>
        have he : evalChain g fwd (fuel + 1) v p st = (none, stg) := by
          simp [evalChain, hc, hgo]
        rw [he]
        refine ⟨hwfg, ?_, hcellg, Δg, hlogg, hevg⟩
        intro r hr
        dsimp only at hr
        cases hr
      | dropped q =>
        have hqf : q.frame_id = p.frame_id := hdrg q rfl
        have he : evalChain g fwd (fuel + 1) v p st
            = (some q, setCache stg v q) := by
          simp [evalChain, hc, hgo]
        rw [he]
        refine ⟨?_, ?_, ?_, Δg, by simpa using hlogg, hevg⟩
        · intro x f pk hpk
          rw [cache_setCache] at hpk
          by_cases hcond : x = v ∧ f = q.frame_id
          · rw [if_pos hcond] at hpk
            cases hpk
            exact hcond.2.symm
          · rw [if_neg hcond] at hpk
            exact hwfg x f pk hpk
        · intro r hr
          dsimp only at hr
          cases hr
          exact hqf
        · intro x f hf
          dsimp only
          rw [cache_setCache, if_neg ?_, hcellg x f hf]
          rintro ⟨_, hfe⟩
          rw [← hqf] at hf
          exact hf hfe
      | ok q =>
        have hqf : q.frame_id = p.frame_id := hokg q rfl
        have he : evalChain g fwd (fuel + 1) v p st
            = (some (fwd v q),
               pushLog (setCache stg v (fwd v q)) (Event.fwd v q (fwd v q))) := by
          simp [evalChain, hc, hgo]
        rw [he]
        have hrf : (fwd v q).frame_id = p.frame_id := by rw [hfid, hqf]
        refine ⟨?_, ?_, ?_, Δg ++ [Event.fwd v q (fwd v q)], ?_, ?_⟩
        · intro x f pk hpk
          rw [cache_pushLog, cache_setCache] at hpk
          by_cases hcond : x = v ∧ f = (fwd v q).frame_id
          · rw [if_pos hcond] at hpk
            cases hpk
            exact hcond.2.symm
          · rw [if_neg hcond] at hpk
            exact hwfg x f pk hpk
        · intro r hr
          dsimp only at hr
          cases hr
          exact hrf
        · intro x f hf
          dsimp only
          rw [cache_pushLog, cache_setCache, if_neg ?_, hcellg x f hf]
          rintro ⟨_, hfe⟩
          rw [← hrf] at hf
          exact hf hfe
        · dsimp only
          rw [log_pushLog, log_setCache, hlogg, List.append_assoc]
        · intro e he' x arg rx hfw
          rcases List.mem_append.mp he' with he' | he'
          · exact hevg e he' x arg rx hfw
          · rw [List.mem_singleton] at he'
            subst he'
            cases hfw
            exact ⟨hqf, hrf⟩
    · have he : evalChain g fwd (fuel + 1) v p st = (some c, st) := by
        simp [evalChain, hc]
      rw [he]
      refine ⟨hwf, ?_, fun x f _ => rfl, [], by simp, by simp⟩
      intro r hr
      cases hr
      exact hwf v p.frame_id c hc

end S2

section DropStopsLemmas

variable {n : Nat}

theorem dropStops_nil : dropStops ([] : List (Event n)) := by
  intro l1 e l2 heq
  exact absurd heq.symm (List.append_ne_nil_of_right_ne_nil l1 (List.cons_ne_nil e l2))

theorem dropStops_single (e0 : Event n) : dropStops [e0] := by
  intro l1 e l2 heq hdrop e2 he2
  have hlen := congrArg List.length heq
  simp [List.length_append] at hlen
  have : l2 = [] := List.length_eq_zero.mp (by omega)
  subst this
  cases he2

theorem dropStops_append {Δ1 Δ2 : List (Event n)}
    (h1 : dropStops Δ1) (h2 : dropStops Δ2)
    (hno : (∃ e ∈ Δ1, isDropFwd e = true) → ∀ e ∈ Δ2, isFwd e = false) :
    dropStops (Δ1 ++ Δ2) := by
  intro l1 e l2 heq hdrop e2 he2
  rcases List.append_eq_append_iff.mp heq with ⟨a', _, ha2⟩ | ⟨c', hc1, hc2⟩
  · exact h2 a' e l2 ha2 hdrop e2 he2
  · cases c' with
    | nil =>
      rw [List.nil_append] at hc2
      exact h2 [] e l2 (by rw [← hc2, List.nil_append]) hdrop e2 he2
    | cons e1 c1 =>
      injection hc2 with he1 hl2
      subst he1
      rcases List.mem_append.mp (hl2 ▸ he2) with hin | hin
      · exact h1 l1 e c1 hc1 hdrop e2 hin
      · refine hno ⟨e, ?_, hdrop⟩ e2 hin
        rw [hc1]
        exact List.mem_append_right _ (List.mem_cons_self _ _)

end DropStopsLemmas

section DropA

variable {n : Nat} (g : NodeGraph n) (fwd : Fin n → FramePacket → FramePacket)

/-- Drop short-circuiting in one inputs pass: once some `forward` deep in
the pass returned a dropped packet, the pass's own outcome is a dropped
packet and no later `forward` events appear. -/
theorem goInputs_dropStops
    (ev : Fin n → FramePacket → EvalState n → Option FramePacket × EvalState n)
    (hev : ∀ (i : Fin n) (p : FramePacket) (st : EvalState n),
      ∃ Δ, (ev i p st).2.log = st.log ++ Δ ∧ dropStops Δ ∧
        ((∃ e ∈ Δ, isDropFwd e = true) →
          ∃ r, (ev i p st).1 = some r ∧ r.drop_frame = true)) :
    ∀ (inputs : List (Fin n)) (p : FramePacket) (st : EvalState n),
      ∃ Δ, (goInputs ev inputs p st).2.log = st.log ++ Δ ∧ dropStops Δ ∧
        ((∃ e ∈ Δ, isDropFwd e = true) →
          ∃ r, (goInputs ev inputs p st).1 = .dropped r) ∧
        (∀ r, (goInputs ev inputs p st).1 = .dropped r →
          r.drop_frame = true) := by
  intro inputs
  induction inputs with
  | nil =>
    intro p st
    refine ⟨[], by simp [goInputs], dropStops_nil, by simp, ?_⟩
    intro r hr
    dsimp only [goInputs] at hr
    cases hr
  | cons i rest ih =>
    intro p st
    obtain ⟨Δ1, hlog1, hds1, himp1⟩ := hev i p st
    rcases hres : ev i p st with ⟨res, st1⟩
    rw [hres] at hlog1 himp1
    dsimp only at hlog1 himp1
    cases res with
    | none =>
      have hgo : goInputs ev (i :: rest) p st = (.exhausted, st1) := by
        simp [goInputs, hres]
      rw [hgo]
      refine ⟨Δ1, hlog1, hds1, ?_, ?_⟩
      · intro hdrop
        obtain ⟨r, hr, _⟩ := himp1 hdrop
        cases hr
      · intro r hr
        dsimp only at hr
        cases hr
    | some q =>
      by_cases hd : q.drop_frame
      · have hgo : goInputs ev (i :: rest) p st = (.dropped q, st1) := by
          simp [goInputs, hres, hd]
        rw [hgo]
        refine ⟨Δ1, hlog1, hds1, fun _ => ⟨q, rfl⟩, ?_⟩
        intro r hr
        dsimp only at hr
        cases hr
        exact hd
      · have hgo : goInputs ev (i :: rest) p st = goInputs ev rest q st1 := by
          simp [goInputs, hres, hd]
        obtain ⟨Δ2, hlog2, hds2, himp2, hmean2⟩ := ih q st1
        rw [hgo]
        have hno1 : ¬ ∃ e ∈ Δ1, isDropFwd e = true := by
          intro hdrop
          obtain ⟨r, hr, hrd⟩ := himp1 hdrop
          cases hr
          exact hd hrd
        refine ⟨Δ1 ++ Δ2, ?_, ?_, ?_, hmean2⟩
        · rw [hlog2, hlog1, List.append_assoc]
        · exact dropStops_append hds1 hds2 fun hdrop => absurd hdrop hno1
        · intro hdrop
          obtain ⟨e, he, hed⟩ := hdrop
          rcases List.mem_append.mp he with he | he
          · exact absurd ⟨e, he, hed⟩ hno1
          · exact himp2 ⟨e, he, hed⟩

/-- Drop short-circuiting in `_eval_node_chain`: once some `forward` in the
evaluation returned a dropped packet, no later `forward` happens in that
evaluation and the chain's overall result is a dropped packet. -/
theorem evalChain_dropStops :
    ∀ (fuel : Nat) (v : Fin n) (p : FramePacket) (st : EvalState n),
      ∃ Δ, (evalChain g fwd fuel v p st).2.log = st.log ++ Δ ∧ dropStops Δ ∧
        ((∃ e ∈ Δ, isDropFwd e = true) →
          ∃ r, (evalChain g fwd fuel v p st).1 = some r ∧
            r.drop_frame = true) := by
  intro fuel
  induction fuel with
  | zero =>
    intro v p st
    exact ⟨[], by simp [evalChain], dropStops_nil, by simp⟩
  | succ fuel ih =>
    intro v p st
    rcases hc : st.cache v p.frame_id with _ | c
    · obtain ⟨Δg, hlogg, hdsg, himpg, hmeang⟩ :=
        goInputs_dropStops (evalChain g fwd fuel) ih (g.inputs v) p st
      rcases hgo : goInputs (evalChain g fwd fuel) (g.inputs v) p st
        with ⟨res, stg⟩
      rw [hgo] at hlogg himpg hmeang
      dsimp only at hlogg himpg hmeang
      cases res with
      | exhausted =>
        have he : evalChain g fwd (fuel + 1) v p st = (none, stg) := by
          simp [evalChain, hc, hgo]
        rw [he]
        refine ⟨Δg, hlogg, hdsg, ?_⟩
        intro hdrop
        obtain ⟨r, hr⟩ := himpg hdrop
        cases hr
      | dropped q =>
        have he : evalChain g fwd (fuel + 1) v p st
            = (some q, setCache stg v q) := by
          simp [evalChain, hc, hgo]
        rw [he]
        exact ⟨Δg, by simpa using hlogg, hdsg,
          fun _ => ⟨q, rfl, hmeang q rfl⟩⟩
      | ok q =>
        have he : evalChain g fwd (fuel + 1) v p st
            = (some (fwd v q),
               pushLog (setCache stg v (fwd v q))
                 (Event.fwd v q (fwd v q))) := by
          simp [evalChain, hc, hgo]
        rw [he]
        have hnog : ¬ ∃ e ∈ Δg, isDropFwd e = true := by
          intro hdrop
          obtain ⟨r, hr⟩ := himpg hdrop
          cases hr
        refine ⟨Δg ++ [Event.fwd v q (fwd v q)], ?_, ?_, ?_⟩
        · dsimp only
          rw [log_pushLog, log_setCache, hlogg, List.append_assoc]
        · exact dropStops_append hdsg (dropStops_single _)
            fun hdrop => absurd hdrop hnog
        · intro hdrop
          obtain ⟨e, he', hed⟩ := hdrop
          rcases List.mem_append.mp he' with he' | he'
          · exact absurd ⟨e, he', hed⟩ hnog
          · rw [List.mem_singleton] at he'
            subst he'
            exact ⟨fwd v q, rfl, by simpa [isDropFwd] using hed⟩
    · exact ⟨[], by simp [evalChain, hc], dropStops_nil, by simp⟩

end DropA

section DropBlockedInv

variable {n : Nat} (g : NodeGraph n) (fwd : Fin n → FramePacket → FramePacket)

/-- One inputs pass keeps the drop barrier intact: the memoized drop at `a`
survives, every downstream memo at `fid` stays dropped, no `forward` of a
node downstream of `a` is emitted, and if some input is downstream of `a`
the pass cannot complete normally. -/
theorem goInputs_dropBlocked
    (hfid : ∀ v q, (fwd v q).frame_id = q.frame_id)
    (a : Fin n) (fid : Nat) (fuel : Nat)
    (hev : ∀ (v : Fin n) (p : FramePacket) (st : EvalState n),
      cacheWF st → st.cache a fid ≠ none → DropBlocked g st a fid →
      ((evalChain g fwd fuel v p st).2.cache a fid ≠ none) ∧
      DropBlocked g (evalChain g fwd fuel v p st).2 a fid ∧
      (p.frame_id = fid → DownstreamOf g a v →
        (∀ r, (evalChain g fwd fuel v p st).1 = some r →
          r.drop_frame = true) ∧
        (∃ Δ, (evalChain g fwd fuel v p st).2.log = st.log ++ Δ ∧
          ∀ e ∈ Δ, ∀ x arg rx, e = Event.fwd x arg rx →
            ¬ DownstreamOf g a x))) :
    ∀ (inputs : List (Fin n)) (p : FramePacket) (st : EvalState n),
      cacheWF st → st.cache a fid ≠ none → DropBlocked g st a fid →
      p.frame_id = fid →
      ((goInputs (evalChain g fwd fuel) inputs p st).2.cache a fid ≠ none) ∧
      DropBlocked g (goInputs (evalChain g fwd fuel) inputs p st).2 a fid ∧
      (∃ Δ, (goInputs (evalChain g fwd fuel) inputs p st).2.log
          = st.log ++ Δ ∧
        ∀ e ∈ Δ, ∀ x arg rx, e = Event.fwd x arg rx →
          ¬ DownstreamOf g a x) ∧
      ((∃ i ∈ inputs, DownstreamOf g a i) →
        ∀ r, (goInputs (evalChain g fwd fuel) inputs p st).1
          ≠ InputsResult.ok r) := by
  intro inputs
  induction inputs with
  | nil =>
    intro p st hwf hanchor hdb hpfid
    refine ⟨hanchor, hdb, ⟨[], by simp [goInputs], by simp⟩, ?_⟩
    rintro ⟨i, hi, _⟩
    cases hi
  | cons i rest ih =>
    intro p st hwf hanchor hdb hpfid
    obtain ⟨ha1, ha2, ha3⟩ := hev i p st hwf hanchor hdb
    obtain ⟨hwf1, hres1, hcell1, _⟩ := evalChain_fid g fwd hfid fuel i p st hwf
    -- the step's new events mention no node downstream of a
    have hstepΔ : ∃ Δ, (evalChain g fwd fuel i p st).2.log = st.log ++ Δ ∧
        ∀ e ∈ Δ, ∀ x arg rx, e = Event.fwd x arg rx →
          ¬ DownstreamOf g a x := by
      by_cases hdown : DownstreamOf g a i
      · exact (ha3 hpfid hdown).2
      · obtain ⟨Δ, hlog, hev', _⟩ := evalChain_structure g fwd fuel i p st
        refine ⟨Δ, hlog, ?_⟩
        intro e he x arg rx hfw hx
        obtain ⟨x', arg', rx', hfw', hup⟩ := hev' e he
        rw [hfw] at hfw'
        injection hfw' with hx' harg hrx
        subst hx'
        exact hdown (Relation.ReflTransGen.trans hx hup)
    rcases hres : evalChain g fwd fuel i p st with ⟨res, st1⟩
    rw [hres] at ha1 ha2 hres1 hcell1 hwf1 hstepΔ
    dsimp only at ha1 ha2 hres1 hcell1 hwf1 hstepΔ
    cases res with
    | none =>
      have hgo : goInputs (evalChain g fwd fuel) (i :: rest) p st
          = (.exhausted, st1) := by
        simp [goInputs, hres]
      rw [hgo]
      refine ⟨ha1, ha2, hstepΔ, ?_⟩
      intro _ r hr
      dsimp only at hr
      cases hr
    | some q =>
      have hqfid : q.frame_id = fid := by rw [hres1 q rfl, hpfid]
      by_cases hd : q.drop_frame
      · have hgo : goInputs (evalChain g fwd fuel) (i :: rest) p st
            = (.dropped q, st1) := by
          simp [goInputs, hres, hd]
        rw [hgo]
        refine ⟨ha1, ha2, hstepΔ, ?_⟩
        intro _ r hr
        dsimp only at hr
        cases hr
      · have hgo : goInputs (evalChain g fwd fuel) (i :: rest) p st
            = goInputs (evalChain g fwd fuel) rest q st1 := by
          simp [goInputs, hres, hd]
        obtain ⟨hb1, hb2, ⟨Δ2, hlog2, hev2⟩, hb4⟩ :=
          ih q st1 hwf1 ha1 ha2 hqfid
        rw [hgo]
        obtain ⟨Δ1, hlog1, hev1⟩ := hstepΔ
        refine ⟨hb1, hb2, ⟨Δ1 ++ Δ2, ?_, ?_⟩, ?_⟩
        · rw [hlog2, hlog1, List.append_assoc]
        · intro e he x arg rx hfw
          rcases List.mem_append.mp he with he | he
          · exact hev1 e he x arg rx hfw
          · exact hev2 e he x arg rx hfw
        · rintro ⟨j, hj, hjdown⟩ r hr
          rcases List.mem_cons.mp hj with rfl | hj
          · -- the downstream input's own evaluation must have dropped
            exact hd ((ha3 hpfid hjdown).1 q (by rw [hres]))
          · exact hb4 ⟨j, hj, hjdown⟩ r hr

/-- The drop barrier persists across any later chain evaluation: the
memoized drop at `a` survives, downstream memos at `fid` stay dropped, and a
chain evaluation of a node downstream of `a` at frame `fid` yields a dropped
packet while emitting no `forward` event of any node downstream of `a`. -/
theorem evalChain_dropBlocked
    (hfid : ∀ v q, (fwd v q).frame_id = q.frame_id) (a : Fin n) (fid : Nat) :
    ∀ (fuel : Nat) (v : Fin n) (p : FramePacket) (st : EvalState n),
      cacheWF st → st.cache a fid ≠ none → DropBlocked g st a fid →
      ((evalChain g fwd fuel v p st).2.cache a fid ≠ none) ∧
      DropBlocked g (evalChain g fwd fuel v p st).2 a fid ∧
      (p.frame_id = fid → DownstreamOf g a v →
        (∀ r, (evalChain g fwd fuel v p st).1 = some r →
          r.drop_frame = true) ∧
        (∃ Δ, (evalChain g fwd fuel v p st).2.log = st.log ++ Δ ∧
          ∀ e ∈ Δ, ∀ x arg rx, e = Event.fwd x arg rx →
            ¬ DownstreamOf g a x)) := by
  intro fuel
  induction fuel with
  | zero =>
    intro v p st hwf hanchor hdb
    refine ⟨hanchor, hdb, fun _ _ => ⟨?_, [], by simp [evalChain], by simp⟩⟩
    intro r hr
    dsimp only [evalChain] at hr
    cases hr
  | succ fuel ih =>
    intro v p st hwf hanchor hdb
    by_cases hpfid : p.frame_id = fid
    · by_cases hdown : DownstreamOf g a v
      · -- evaluating a node downstream of the drop point, at the dropped frame
        rcases hcv : st.cache v p.frame_id with _ | c
        · have hva : v ≠ a := by
            intro hva
            rw [hva, hpfid] at hcv
            exact hanchor hcv
          obtain ⟨u, hau, huv⟩ : ∃ u, DownstreamOf g a u ∧ inputEdge g u v := by
            rcases Relation.ReflTransGen.cases_tail hdown with heq | ⟨u, hau, huv⟩
            · exact absurd heq hva
            · exact ⟨u, hau, huv⟩
          obtain ⟨q1, q2, ⟨Δg, hlogg, hevg⟩, q4⟩ :=
            goInputs_dropBlocked g fwd hfid a fid fuel ih (g.inputs v) p st
              hwf hanchor hdb hpfid
          obtain ⟨_, _, hdrfid, _, _⟩ :=
            goInputs_fid (evalChain g fwd fuel)
              (fun i p' st' hwf' => evalChain_fid g fwd hfid fuel i p' st' hwf')
              (g.inputs v) p st hwf
          obtain ⟨_, _, _, _, hmean⟩ :=
            goInputs_dropStops (evalChain g fwd fuel)
              (fun i p' st' => evalChain_dropStops g fwd fuel i p' st')
              (g.inputs v) p st
          rcases hgo : goInputs (evalChain g fwd fuel) (g.inputs v) p st
            with ⟨res, stg⟩
          rw [hgo] at q1 q2 hlogg q4 hdrfid hmean
          dsimp only at q1 q2 hlogg q4 hdrfid hmean
          cases res with
          | exhausted =>
            have he : evalChain g fwd (fuel + 1) v p st = (none, stg) := by
              simp [evalChain, hcv, hgo]
            rw [he]
            refine ⟨q1, q2, fun _ _ => ⟨?_, Δg, hlogg, hevg⟩⟩
            intro r hr
            dsimp only at hr
            cases hr
          | dropped q =>
            have hqd : q.drop_frame = true := hmean q rfl
            have hqfid : q.frame_id = fid := by rw [hdrfid q rfl, hpfid]
            have he : evalChain g fwd (fuel + 1) v p st
                = (some q, setCache stg v q) := by
              simp [evalChain, hcv, hgo]
            rw [he]
            refine ⟨?_, ?_, fun _ _ => ⟨?_, Δg, by simpa using hlogg, hevg⟩⟩
            · dsimp only
              rw [cache_setCache, if_neg fun hh => hva.symm hh.1]
              exact q1
            · intro x hx pk hpk
              rw [cache_setCache] at hpk
              by_cases hcond : x = v ∧ fid = q.frame_id
              · rw [if_pos hcond] at hpk
                cases hpk
                exact hqd
              · rw [if_neg hcond] at hpk
                exact q2 x hx pk hpk
            · intro r hr
              dsimp only at hr
              cases hr
              exact hqd
          | ok q =>
            exact absurd rfl (q4 ⟨u, huv, hau⟩ q)
        · -- cache hit: the memo is already dropped
          have he : evalChain g fwd (fuel + 1) v p st = (some c, st) := by
            simp [evalChain, hcv]
          rw [he]
          refine ⟨hanchor, hdb, fun _ _ => ⟨?_, [], by simp, by simp⟩⟩
          intro r hr
          dsimp only at hr
          cases hr
          exact hdb v hdown c (hpfid ▸ hcv)
      · -- not downstream: writes only touch nodes upstream of v
        obtain ⟨Δ, _, _, hw⟩ := evalChain_structure g fwd (fuel + 1) v p st
        have hcell : ∀ x, DownstreamOf g a x →
            (evalChain g fwd (fuel + 1) v p st).2.cache x fid
              = st.cache x fid := by
          intro x hx
          by_contra hne
          obtain ⟨hup, _⟩ := hw x fid hne
          exact hdown (Relation.ReflTransGen.trans hx hup)
        refine ⟨?_, ?_, fun _ hdown' => absurd hdown' hdown⟩
        · rw [hcell a Relation.ReflTransGen.refl]
          exact hanchor
        · intro x hx pk hpk
          rw [hcell x hx] at hpk
          exact hdb x hx pk hpk
    · -- a different frame id: cells of frame `fid` are untouched
      obtain ⟨_, _, hcell, _⟩ := evalChain_fid g fwd hfid (fuel + 1) v p st hwf
      refine ⟨?_, ?_, fun hpf _ => absurd hpf hpfid⟩
      · rw [hcell a fid fun hh => hpfid hh.symm]
        exact hanchor
      · intro x hx pk hpk
        rw [hcell x fid fun hh => hpfid hh.symm] at hpk
        exact hdb x hx pk hpk

/-- Any chain evaluation emits no `forward` of a node downstream of the
drop point `a` at the dropped frame `fid`, whatever node it starts from. -/
theorem evalChain_no_downstream_fwd
    (hfid : ∀ v q, (fwd v q).frame_id = q.frame_id) (a : Fin n) (fid : Nat)
    (fuel : Nat) (v : Fin n) (p : FramePacket) (st : EvalState n)
    (hwf : cacheWF st) (hanchor : st.cache a fid ≠ none)
    (hdb : DropBlocked g st a fid) :
    ∃ Δ, (evalChain g fwd fuel v p st).2.log = st.log ++ Δ ∧
      (∀ e ∈ Δ, isFwd e = true) ∧
      ∀ e ∈ Δ, ∀ x arg rx, e = Event.fwd x arg rx →
        arg.frame_id = fid → ¬ DownstreamOf g a x := by
  obtain ⟨Δs, hlogs, hevs, _⟩ := evalChain_structure g fwd fuel v p st
  have hfwdonly : ∀ e ∈ Δs, isFwd e = true := by
    intro e he
    obtain ⟨x, arg, rx, hfw, _⟩ := hevs e he
    rw [hfw]
    rfl
  by_cases hpfid : p.frame_id = fid
  · by_cases hdown : DownstreamOf g a v
    · obtain ⟨_, _, hC4⟩ :=
        evalChain_dropBlocked g fwd hfid a fid fuel v p st hwf hanchor hdb
      obtain ⟨_, Δ, hlog, hev'⟩ := hC4 hpfid hdown
      have hΔ : Δs = Δ := by
        rw [hlog] at hlogs
        exact (List.append_cancel_left hlogs).symm
      subst hΔ
      exact ⟨Δs, hlog, hfwdonly, fun e he x arg rx hfw _ => hev' e he x arg rx hfw⟩
    · refine ⟨Δs, hlogs, hfwdonly, ?_⟩
      intro e he x arg rx hfw _ hx
      obtain ⟨x', arg', rx', hfw', hup⟩ := hevs e he
      rw [hfw] at hfw'
      injection hfw' with hx' _ _
      subst hx'
      exact hdown (Relation.ReflTransGen.trans hx hup)
  · obtain ⟨_, _, _, Δf, hlogf, hevf⟩ :=
      evalChain_fid g fwd hfid fuel v p st hwf
    have hΔ : Δs = Δf := by
      rw [hlogf] at hlogs
      exact (List.append_cancel_left hlogs).symm
    subst hΔ
    refine ⟨Δs, hlogf, hfwdonly, ?_⟩
    intro e he x arg rx hfw hargfid _
    obtain ⟨h1, _⟩ := hevf e he x arg rx hfw
    exact hpfid (h1 ▸ hargfid)

/-- The sink loop of one tick preserves the drop barrier; its new `consume`
events never carry a dropped packet, never deliver frame `fid` to a sink
downstream of `a`, and its new `forward` events at `fid` never hit a node
downstream of `a`. -/
theorem runSinks_dropBlocked
    (hfid : ∀ v q, (fwd v q).frame_id = q.frame_id) (a : Fin n) (fid : Nat) :
    ∀ (sinks : List (Fin n)) (fuel : Nat) (p : FramePacket)
      (st : EvalState n),
      cacheWF st → st.cache a fid ≠ none → DropBlocked g st a fid →
      cacheWF (runSinks g fwd fuel p sinks st) ∧
      (runSinks g fwd fuel p sinks st).cache a fid ≠ none ∧
      DropBlocked g (runSinks g fwd fuel p sinks st) a fid ∧
      ∃ Δ, (runSinks g fwd fuel p sinks st).log = st.log ++ Δ ∧
        (∀ e ∈ Δ, ∀ x arg rx, e = Event.fwd x arg rx →
          arg.frame_id = fid → ¬ DownstreamOf g a x) ∧
        (∀ e ∈ Δ, ∀ s o, e = Event.consume s o →
          o.drop_frame = false ∧
            (o.frame_id = fid → ¬ DownstreamOf g a s)) := by
  intro sinks
  induction sinks with
  | nil =>
    intro fuel p st hwf hanchor hdb
    exact ⟨hwf, hanchor, hdb, [], by simp [runSinks], by simp, by simp⟩
  | cons s rest ih =>
    intro fuel p st hwf hanchor hdb
    obtain ⟨hwf1, hres1, _, _⟩ := evalChain_fid g fwd hfid fuel s p st hwf
    obtain ⟨ha1, ha2, hC4⟩ :=
      evalChain_dropBlocked g fwd hfid a fid fuel s p st hwf hanchor hdb
    obtain ⟨Δ1, hlog1, hfwd1, hev1⟩ :=
      evalChain_no_downstream_fwd g fwd hfid a fid fuel s p st hwf hanchor hdb
    rcases hres : evalChain g fwd fuel s p st with ⟨res, st1⟩
    rw [hres] at hwf1 hres1 ha1 ha2 hlog1
    dsimp only at hwf1 hres1 ha1 ha2 hlog1
    have hnocons1 : ∀ e ∈ Δ1, ∀ s' o, e = Event.consume s' o → False := by
      intro e he s' o hco
      have := hfwd1 e he
      rw [hco] at this
      cases this
    cases res with
    | none =>
      have hgo : runSinks g fwd fuel p (s :: rest) st
          = runSinks g fwd fuel p rest st1 := by
        simp [runSinks, hres]
      rw [hgo]
      obtain ⟨hwf2, ha12, ha22, Δ2, hlog2, hfwd2, hcons2⟩ :=
        ih fuel p st1 hwf1 ha1 ha2
      refine ⟨hwf2, ha12, ha22, Δ1 ++ Δ2, ?_, ?_, ?_⟩
      · rw [hlog2, hlog1, List.append_assoc]
      · intro e he x arg rx hfw
        rcases List.mem_append.mp he with he | he
        · exact hev1 e he x arg rx hfw
        · exact hfwd2 e he x arg rx hfw
      · intro e he s' o hco
        rcases List.mem_append.mp he with he | he
        · exact absurd (hnocons1 e he s' o hco) not_false
        · exact hcons2 e he s' o hco
    | some o =>
      by_cases hd : o.drop_frame
      · have hgo : runSinks g fwd fuel p (s :: rest) st
            = runSinks g fwd fuel p rest st1 := by
          simp [runSinks, hres, hd]
        rw [hgo]
        obtain ⟨hwf2, ha12, ha22, Δ2, hlog2, hfwd2, hcons2⟩ :=
          ih fuel p st1 hwf1 ha1 ha2
        refine ⟨hwf2, ha12, ha22, Δ1 ++ Δ2, ?_, ?_, ?_⟩
        · rw [hlog2, hlog1, List.append_assoc]
        · intro e he x arg rx hfw
          rcases List.mem_append.mp he with he | he
          · exact hev1 e he x arg rx hfw
          · exact hfwd2 e he x arg rx hfw
        · intro e he s' o' hco
          rcases List.mem_append.mp he with he | he
          · exact absurd (hnocons1 e he s' o' hco) not_false
          · exact hcons2 e he s' o' hco
      · have hgo : runSinks g fwd fuel p (s :: rest) st
            = runSinks g fwd fuel p rest
                (pushLog st1 (Event.consume s o)) := by
          simp [runSinks, hres, hd]
        rw [hgo]
        have hwf1' : cacheWF (pushLog st1 (Event.consume s o)) := hwf1
        have ha1' : (pushLog st1 (Event.consume s o)).cache a fid ≠ none := ha1
        have ha2' : DropBlocked g (pushLog st1 (Event.consume s o)) a fid :=
          ha2
        obtain ⟨hwf2, ha12, ha22, Δ2, hlog2, hfwd2, hcons2⟩ :=
          ih fuel p (pushLog st1 (Event.consume s o)) hwf1' ha1' ha2'
        refine ⟨hwf2, ha12, ha22,
          Δ1 ++ (Event.consume s o :: Δ2), ?_, ?_, ?_⟩
        · rw [hlog2]
          dsimp only [log_pushLog]
          rw [hlog1]
          simp
        · intro e he x arg rx hfw
          rcases List.mem_append.mp he with he | he
          · exact hev1 e he x arg rx hfw
          · rcases List.mem_cons.mp he with rfl | he
            · cases hfw
            · exact hfwd2 e he x arg rx hfw
        · intro e he s' o' hco
          rcases List.mem_append.mp he with he | he
          · exact absurd (hnocons1 e he s' o' hco) not_false
          · rcases List.mem_cons.mp he with rfl | he
            · injection hco with hs' ho'
              subst hs'
              subst ho'
              refine ⟨by simpa using hd, ?_⟩
              intro hofid hdowns
              have hpfid : p.frame_id = fid := by
                rw [← hres1 o rfl, hofid]
              have := (hC4 hpfid hdowns).1 o (by rw [hres])
              exact hd (by simpa using this)
            · exact hcons2 e he s' o' hco

/-- A whole tick preserves the drop barrier: its new `forward` events at
frame `fid` never hit a node downstream of `a`, and its new `consume`
events never carry a dropped packet and never deliver frame `fid` to a sink
downstream of `a`. -/
theorem run_once_dropBlocked
    (hfid : ∀ v q, (fwd v q).frame_id = q.frame_id) (a : Fin n) (fid : Nat) :
    ∀ (produced : List (Option FramePacket)) (sinks : List (Fin n))
      (fuel : Nat) (st : EvalState n),
      cacheWF st → st.cache a fid ≠ none → DropBlocked g st a fid →
      cacheWF (run_once g fwd fuel produced sinks st).2 ∧
      (run_once g fwd fuel produced sinks st).2.cache a fid ≠ none ∧
      DropBlocked g (run_once g fwd fuel produced sinks st).2 a fid ∧
      ∃ Δ, (run_once g fwd fuel produced sinks st).2.log = st.log ++ Δ ∧
        (∀ e ∈ Δ, ∀ x arg rx, e = Event.fwd x arg rx →
          arg.frame_id = fid → ¬ DownstreamOf g a x) ∧
        (∀ e ∈ Δ, ∀ s o, e = Event.consume s o →
          o.drop_frame = false ∧
            (o.frame_id = fid → ¬ DownstreamOf g a s)) := by
  intro produced
  induction produced with
  | nil =>
    intro sinks fuel st hwf hanchor hdb
    exact ⟨hwf, hanchor, hdb, [], by simp [run_once], by simp, by simp⟩
  | cons hd' rest ih =>
    intro sinks fuel st hwf hanchor hdb
    cases hd' with
    | none =>
      have hr : run_once g fwd fuel (none :: rest) sinks st
          = run_once g fwd fuel rest sinks st := by
        simp [run_once]
      rw [hr]
      exact ih sinks fuel st hwf hanchor hdb
    | some p =>
      by_cases hpd : p.drop_frame
      · have hr : run_once g fwd fuel (some p :: rest) sinks st
            = (true, (run_once g fwd fuel rest sinks st).2) := by
          simp [run_once, hpd]
        rw [hr]
        exact ih sinks fuel st hwf hanchor hdb
      · have hr : run_once g fwd fuel (some p :: rest) sinks st
            = (true, (run_once g fwd fuel rest sinks
                (runSinks g fwd fuel p sinks st)).2) := by
          simp [run_once, hpd]
        rw [hr]
        obtain ⟨hwf1, ha1, hdb1, Δ1, hlog1, hfwd1, hcons1⟩ :=
          runSinks_dropBlocked g fwd hfid a fid sinks fuel p st hwf hanchor hdb
        obtain ⟨hwf2, ha2, hdb2, Δ2, hlog2, hfwd2, hcons2⟩ :=
          ih sinks fuel (runSinks g fwd fuel p sinks st) hwf1 ha1 hdb1
        refine ⟨hwf2, ha2, hdb2, Δ1 ++ Δ2, ?_, ?_, ?_⟩
        · dsimp only
          rw [hlog2, hlog1, List.append_assoc]
        · intro e he x arg rx hfw
          rcases List.mem_append.mp he with he | he
          · exact hfwd1 e he x arg rx hfw
          · exact hfwd2 e he x arg rx hfw
        · intro e he s o hco
          rcases List.mem_append.mp he with he | he
          · exact hcons1 e he s o hco
          · exact hcons2 e he s o hco

/-- New `consume` events of the sink loop never carry a dropped packet. -/
theorem runSinks_consume_sound :
    ∀ (sinks : List (Fin n)) (fuel : Nat) (p : FramePacket)
      (st : EvalState n),
      ∃ Δ, (runSinks g fwd fuel p sinks st).log = st.log ++ Δ ∧
        ∀ e ∈ Δ, ∀ s o, e = Event.consume s o → o.drop_frame = false := by
  intro sinks
  induction sinks with
  | nil =>
    intro fuel p st
    exact ⟨[], by simp [runSinks], by simp⟩
  | cons s rest ih =>
    intro fuel p st
    obtain ⟨Δ1, hlog1, hev1, _⟩ := evalChain_structure g fwd fuel s p st
    rcases hres : evalChain g fwd fuel s p st with ⟨res, st1⟩
    rw [hres] at hlog1
    dsimp only at hlog1
    have hnocons1 : ∀ e ∈ Δ1, ∀ s' o, e = Event.consume s' o → False := by
      intro e he s' o hco
      obtain ⟨x, arg, rx, hfw, _⟩ := hev1 e he
      rw [hco] at hfw
      cases hfw
    cases res with
    | none =>
      have hgo : runSinks g fwd fuel p (s :: rest) st
          = runSinks g fwd fuel p rest st1 := by
        simp [runSinks, hres]
      rw [hgo]
      obtain ⟨Δ2, hlog2, hcons2⟩ := ih fuel p st1
      refine ⟨Δ1 ++ Δ2, by rw [hlog2, hlog1, List.append_assoc], ?_⟩
      intro e he s' o hco
      rcases List.mem_append.mp he with he | he
      · exact absurd (hnocons1 e he s' o hco) not_false
      · exact hcons2 e he s' o hco
    | some o =>
      by_cases hd : o.drop_frame
      · have hgo : runSinks g fwd fuel p (s :: rest) st
            = runSinks g fwd fuel p rest st1 := by
          simp [runSinks, hres, hd]
        rw [hgo]
        obtain ⟨Δ2, hlog2, hcons2⟩ := ih fuel p st1
        refine ⟨Δ1 ++ Δ2, by rw [hlog2, hlog1, List.append_assoc], ?_⟩
        intro e he s' o' hco
        rcases List.mem_append.mp he with he | he
        · exact absurd (hnocons1 e he s' o' hco) not_false
        · exact hcons2 e he s' o' hco
      · have hgo : runSinks g fwd fuel p (s :: rest) st
            = runSinks g fwd fuel p rest
                (pushLog st1 (Event.consume s o)) := by
          simp [runSinks, hres, hd]
        rw [hgo]
        obtain ⟨Δ2, hlog2, hcons2⟩ := ih fuel p (pushLog st1 (Event.consume s o))
        refine ⟨Δ1 ++ (Event.consume s o :: Δ2), ?_, ?_⟩
        · rw [hlog2]
          dsimp only [log_pushLog]
          rw [hlog1]
          simp
        · intro e he s' o' hco
          rcases List.mem_append.mp he with he | he
          · exact absurd (hnocons1 e he s' o' hco) not_false
          · rcases List.mem_cons.mp he with rfl | he
            · injection hco with _ ho'
              subst ho'
              simpa using hd
            · exact hcons2 e he s' o' hco

/-- New `consume` events of a whole tick never carry a dropped packet. -/
theorem run_once_consume_sound :
    ∀ (produced : List (Option FramePacket)) (sinks : List (Fin n))
      (fuel : Nat) (st : EvalState n),
      ∃ Δ, (run_once g fwd fuel produced sinks st).2.log = st.log ++ Δ ∧
        ∀ e ∈ Δ, ∀ s o, e = Event.consume s o → o.drop_frame = false := by
  intro produced
  induction produced with
  | nil =>
    intro sinks fuel st
    exact ⟨[], by simp [run_once], by simp⟩
  | cons hd' rest ih =>
    intro sinks fuel st
    cases hd' with
    | none =>
      have hr : run_once g fwd fuel (none :: rest) sinks st
          = run_once g fwd fuel rest sinks st := by
        simp [run_once]
      rw [hr]
      exact ih sinks fuel st
    | some p =>
      by_cases hpd : p.drop_frame
      · have hr : run_once g fwd fuel (some p :: rest) sinks st
            = (true, (run_once g fwd fuel rest sinks st).2) := by
          simp [run_once, hpd]
        rw [hr]
        exact ih sinks fuel st
      · have hr : run_once g fwd fuel (some p :: rest) sinks st
            = (true, (run_once g fwd fuel rest sinks
                (runSinks g fwd fuel p sinks st)).2) := by
          simp [run_once, hpd]
        rw [hr]
        obtain ⟨Δ1, hlog1, hcons1⟩ := runSinks_consume_sound g fwd sinks fuel p st
        obtain ⟨Δ2, hlog2, hcons2⟩ := ih sinks fuel (runSinks g fwd fuel p sinks st)
        refine ⟨Δ1 ++ Δ2, ?_, ?_⟩
        · dsimp only
          rw [hlog2, hlog1, List.append_assoc]
        · intro e he s o hco
          rcases List.mem_append.mp he with he | he
          · exact hcons1 e he s o hco
          · exact hcons2 e he s o hco

end DropBlockedInv

/-- A fwd event whose result is dropped and whose argument carries `fid`. -/
def isDropFwdAt {n : Nat} (fid : Nat) : Event n → Bool
  | Event.fwd _ arg r => r.drop_frame && (arg.frame_id == fid)
  | _ => false

/-- A consume event delivering a packet with frame id `fid`. -/
def isConsumeAt {n : Nat} (fid : Nat) : Event n → Bool
  | Event.consume _ o => o.frame_id == fid
  | _ => false

/-- Two disjoint chains `0 → 1 → 2` and `0 → 3 → 4` with sinks 2 and 4;
node 1 drops every frame. -/
def dropGraph : NodeGraph 5 where
  inputs := ![[], [0], [1], [0], [3]]
  outputs := ![[1, 3], [2], [], [4], []]

/-- Forward functions for `dropGraph`: node 1 sets `drop_frame`, all other
nodes pass the packet through. -/
def dropFwd : Fin 5 → FramePacket → FramePacket :=
  fun v q => if v = 1 then { q with drop_frame := true } else q

/-- C3 (corrected): the original claim's "no sink's consume is called with
that frame_id" is false — a drop on one branch does not silence sinks on a
disjoint branch (see the counterexample). What `run_once` /
`_eval_node_chain` (runner.py 48-83) do guarantee, with frame-id-preserving
forwards, is: (A) within one chain evaluation, once some `forward` returns
a dropped packet no later `forward` occurs in that evaluation and the
chain's result is dropped; (B) no sink's `consume` ever receives a dropped
packet in a tick; (C) a memoized dropped packet at node `a` for frame `fid`
persists through any later chain evaluation, keeps every downstream memo at
`fid` dropped, and makes any chain evaluation of a node downstream of `a`
at frame `fid` return a dropped packet without `forward`-ing any node
downstream of `a`; (D) likewise across a whole tick, whose new `forward`
events at `fid` never hit a node downstream of `a` and whose new `consume`
events never carry a dropped packet nor deliver frame `fid` to a sink
downstream of `a`. -/
theorem drop_propagation {n : Nat} (g : NodeGraph n)
    (fwd : Fin n → FramePacket → FramePacket)
    (hfid : ∀ v q, (fwd v q).frame_id = q.frame_id) :
    (∀ (fuel : Nat) (v : Fin n) (p : FramePacket) (st : EvalState n),
      ∃ Δ, (evalChain g fwd fuel v p st).2.log = st.log ++ Δ ∧ dropStops Δ ∧
        ((∃ e ∈ Δ, isDropFwd e = true) →
          ∃ r, (evalChain g fwd fuel v p st).1 = some r ∧
            r.drop_frame = true)) ∧
    (∀ (produced : List (Option FramePacket)) (sinks : List (Fin n))
        (fuel : Nat) (st : EvalState n),
      ∃ Δ, (run_once g fwd fuel produced sinks st).2.log = st.log ++ Δ ∧
        ∀ e ∈ Δ, ∀ s o, e = Event.consume s o → o.drop_frame = false) ∧
    (∀ (a : Fin n) (fid : Nat) (fuel : Nat) (v : Fin n) (p : FramePacket)
        (st : EvalState n),
      cacheWF st → st.cache a fid ≠ none → DropBlocked g st a fid →
      ((evalChain g fwd fuel v p st).2.cache a fid ≠ none) ∧
      DropBlocked g (evalChain g fwd fuel v p st).2 a fid ∧
      (p.frame_id = fid → DownstreamOf g a v →
        (∀ r, (evalChain g fwd fuel v p st).1 = some r →
          r.drop_frame = true) ∧
        (∃ Δ, (evalChain g fwd fuel v p st).2.log = st.log ++ Δ ∧
          ∀ e ∈ Δ, ∀ x arg rx, e = Event.fwd x arg rx →
            ¬ DownstreamOf g a x))) ∧
    (∀ (a : Fin n) (fid : Nat) (produced : List (Option FramePacket))
        (sinks : List (Fin n)) (fuel : Nat) (st : EvalState n),
      cacheWF st → st.cache a fid ≠ none → DropBlocked g st a fid →
      cacheWF (run_once g fwd fuel produced sinks st).2 ∧
      (run_once g fwd fuel produced sinks st).2.cache a fid ≠ none ∧
      DropBlocked g (run_once g fwd fuel produced sinks st).2 a fid ∧
      ∃ Δ, (run_once g fwd fuel produced sinks st).2.log = st.log ++ Δ ∧
        (∀ e ∈ Δ, ∀ x arg rx, e = Event.fwd x arg rx →
          arg.frame_id = fid → ¬ DownstreamOf g a x) ∧
        (∀ e ∈ Δ, ∀ s o, e = Event.consume s o →
          o.drop_frame = false ∧
            (o.frame_id = fid → ¬ DownstreamOf g a s))) :=
  ⟨evalChain_dropStops g fwd,
   run_once_consume_sound g fwd,
   fun a fid => evalChain_dropBlocked g fwd hfid a fid,
   fun a fid => run_once_dropBlocked g fwd hfid a fid⟩

/-- Closed witness for `drop_propagation`, part (A), on `dropGraph` with
identity forwards. -/
theorem drop_propagation_witness :
    ∃ Δ, (evalChain dropGraph (fun _ q => q) 4 2 pkt7 (emptyEval 5)).2.log
        = (emptyEval 5).log ++ Δ ∧ dropStops Δ ∧
      ((∃ e ∈ Δ, isDropFwd e = true) →
        ∃ r, (evalChain dropGraph (fun _ q => q) 4 2 pkt7 (emptyEval 5)).1
            = some r ∧ r.drop_frame = true) :=
  (drop_propagation dropGraph (fun _ q => q) (fun _ _ => rfl)).1
    4 2 pkt7 (emptyEval 5)

/-- Counterexample to C3 as stated: on `dropGraph` (edge-consistent, with
frame-id-preserving forwards) one tick on frame 7 both records a `forward`
whose result is dropped at frame 7 (node 1) and still calls a sink's
`consume` with frame 7 (sink 4, on the disjoint branch), refuting "no
sink's consume is called with that frame_id". -/
theorem drop_propagation_cex :
    edgeConsistent dropGraph ∧
    (∀ v q, (dropFwd v q).frame_id = q.frame_id) ∧
    ((run_once dropGraph dropFwd 6 [some pkt7] [2, 4]
        (emptyEval 5)).2.log.any (isDropFwdAt 7) = true) ∧
    ((run_once dropGraph dropFwd 6 [some pkt7] [2, 4]
        (emptyEval 5)).2.log.any (isConsumeAt 7) = true) := by
  refine ⟨by decide, ?_, rfl, rfl⟩
  intro v q
  by_cases h : v = (1 : Fin 5) <;> simp [dropFwd, h]

end Dustycam

namespace Dustycam

/-! ## Settings persistence (`pipeline.py`) -/

/-- A JSON-able property value. -/
inductive Val
  | i (z : Int)
  | b (bl : Bool)
  | s (str : String)
deriving DecidableEq

/-- A JSON object / python dict, as an association list whose earlier
entries shadow later ones (first match wins on lookup). -/
abbrev Props := List (String × Val)

/-- Dict lookup: first matching key. -/
def lookup : Props → String → Option Val
  | [], _ => none
  | (k', v') :: rest, k => if k' = k then some v' else lookup rest k

/-- Dict assignment `d[k] = v`: overwrite in place, else append. -/
def setKey : Props → String → Val → Props
  | [], k, v => [(k, v)]
  | (k', v') :: rest, k, v =>
    if k' = k then (k, v) :: rest else (k', v') :: setKey rest k v

/-- Python `current_data.update(new_settings)` (pipeline.py line 94). -/
def dictUpdate (d upd : Props) : Props :=
  upd.foldl (fun acc kv => setKey acc kv.1 kv.2) d

/-- A pydantic settings model: default values, `model_validate` (`none` on
`ValidationError`) and `model_dump`. -/
structure SettingsModel (M : Type) where
  defaults : M
  validate : Props → Option M
  dump : M → Props

/-- The settings file on disk: missing, unreadable/unparsable, or holding a
parsed JSON object. -/
inductive FileState
  | absent
  | corrupt
  | stored (d : Props)
deriving DecidableEq

/-- The settings-related state of a `Pipeline`: in-memory settings, the
durable file, and the lines printed so far. -/
structure PipelineState (M : Type) where
  settings : M
  file : FileState
  log : List String

/-- `Pipeline._save_settings` (pipeline.py 69-82): serialize the given
model to the settings file. -/
def save_settings {M : Type} (sm : SettingsModel M) (m : M)
    (_fs : FileState) : FileState :=
  FileState.stored (sm.dump m)

/-- `Pipeline._load_settings` (pipeline.py 45-67): missing file saves and
returns defaults; an unreadable file or a validation failure prints an
error, saves defaults, and returns them; valid stored data is loaded and
the file is left alone. Returns (settings, file, printed lines). -/
def load_settings {M : Type} (sm : SettingsModel M) :
    FileState → M × FileState × List String
  | FileState.absent =>
    (sm.defaults, save_settings sm sm.defaults FileState.absent, [])
  | FileState.corrupt =>
    (sm.defaults, save_settings sm sm.defaults FileState.corrupt,
     ["Error loading settings"])
  | FileState.stored d =>
    match sm.validate d with
    | some m => (m, FileState.stored d, ["Loaded settings"])
    | none =>
      (sm.defaults, save_settings sm sm.defaults (FileState.stored d),
       ["Error loading settings"])

/-- `Pipeline.__init__` with a settings model (pipeline.py 34-35): the
manager starts from whatever `_load_settings` produced. -/
def pipelineInit {M : Type} (sm : SettingsModel M) (fs : FileState) :
    PipelineState M :=
  let r := load_settings sm fs
  ⟨r.1, r.2.1, r.2.2⟩

/-- `Pipeline.update_settings` with `restart=False` (pipeline.py 84-105):
merge the dump of the current settings with the new values, validate; on
failure print and abort; on success install the new settings and
immediately call `_save_settings()`. -/
def update_settings {M : Type} (sm : SettingsModel M) (st : PipelineState M)
    (new_settings : Props) : PipelineState M :=
  match sm.validate (dictUpdate (sm.dump st.settings) new_settings) with
  | none => { st with log := st.log ++ ["Validation error updating settings"] }
  | some updated =>
    { settings := updated,
      file := save_settings sm updated st.file,
      log := st.log }

/-- Keys absent from a dict look up to `none`. -/
theorem lookup_eq_none_of_not_mem (d : Props) (k : String)
    (h : k ∉ d.map Prod.fst) : lookup d k = none := by
  induction d with
  | nil => rfl
  | cons kv rest ih =>
    simp only [List.map_cons, List.mem_cons] at h
    push_neg at h
    rcases kv with ⟨k', v'⟩
    simp only [lookup, if_neg (Ne.symm h.1)]
    exact ih h.2

/-- `d[k] = v` makes `k` look up to `v`. -/
theorem lookup_setKey_self (d : Props) (k : String) (v : Val) :
    lookup (setKey d k v) k = some v := by
  induction d with
  | nil => simp [setKey, lookup]
  | cons kv rest ih =>
    rcases kv with ⟨ku, vu⟩
    by_cases h : ku = k
    · simp [setKey, h, lookup]
    · simp [setKey, h, lookup, ih]

/-- `d[k] = v` leaves other keys alone. -/
theorem lookup_setKey_other (d : Props) (k k' : String) (v : Val)
    (h : k' ≠ k) :
    lookup (setKey d k v) k' = lookup d k' := by
  induction d with
  | nil => simp [setKey, lookup, Ne.symm h]
  | cons kv rest ih =>
    rcases kv with ⟨ku, vu⟩
    by_cases hk : ku = k
    · subst hk
      simp [setKey, lookup, Ne.symm h]
    · by_cases hk' : ku = k'
      · subst hk'
        simp [setKey, lookup, hk]
      · simp [setKey, hk, lookup, hk', ih]

/-- `dict.update` semantics: when the update's keys are distinct, a key of
the update wins, any other key keeps its old value. -/
theorem lookup_dictUpdate (upd : Props) (hnd : (upd.map Prod.fst).Nodup) :
    ∀ (d : Props) (k : String),
      lookup (dictUpdate d upd) k =
        match lookup upd k with
        | some v => some v
        | none => lookup d k := by
  induction upd with
  | nil =>
    intro d k
    simp [dictUpdate, lookup]
  | cons kv rest ih =>
    intro d k
    simp only [List.map_cons, List.nodup_cons] at hnd
    have hstep : dictUpdate d (kv :: rest)
        = dictUpdate (setKey d kv.1 kv.2) rest := by
      simp [dictUpdate, List.foldl_cons]
    rw [hstep, ih hnd.2]
    by_cases hk : kv.1 = k
    · subst hk
      rw [lookup_eq_none_of_not_mem rest kv.1 hnd.1]
      simp [lookup, lookup_setKey_self]
    · simp only [lookup, if_neg hk]
      cases hrest : lookup rest k with
      | some v => rfl
      | none => simp [lookup_setKey_other d kv.1 k kv.2 fun he => hk he.symm]


/-- A concrete one-field settings model: a single integer property `p`
with default 0. -/
def intModel : SettingsModel Int where
  defaults := 0
  validate := fun d =>
    match lookup d "p" with
    | some (Val.i z) => some z
    | _ => none
  dump := fun z => [("p", Val.i z)]

/-- C4 (corrected): the claim's "leaves durable storage unchanged" is
false — `update_settings` (pipeline.py 84-105) calls `_save_settings()`
itself on every successful update, so the stored configuration changes
without any separate save request (see the counterexample). What does
hold: a valid update merges the new key/value pairs into the dump of the
current settings last-write-wins per key, installs the validated result in
memory, and immediately persists it to the settings file. -/
theorem update_settings_persists_immediately {M : Type}
    (sm : SettingsModel M) (st : PipelineState M) (new_settings : Props)
    (updated : M) (hnd : (new_settings.map Prod.fst).Nodup)
    (hv : sm.validate (dictUpdate (sm.dump st.settings) new_settings)
      = some updated) :
    (∀ k, lookup (dictUpdate (sm.dump st.settings) new_settings) k =
        match lookup new_settings k with
        | some v => some v
        | none => lookup (sm.dump st.settings) k) ∧
    (update_settings sm st new_settings).settings = updated ∧
    (update_settings sm st new_settings).file
      = FileState.stored (sm.dump updated) ∧
    (update_settings sm st new_settings).log = st.log := by
  refine ⟨fun k => lookup_dictUpdate new_settings hnd (sm.dump st.settings) k,
    ?_, ?_, ?_⟩ <;> simp [update_settings, hv, save_settings]

/-- Closed witness for `update_settings_persists_immediately`: starting
from a fresh manager over an absent file, a valid update `p := 5` lands in
memory and on disk at once. -/
theorem update_settings_persists_immediately_witness :
    (∀ k, lookup (dictUpdate
        (intModel.dump (pipelineInit intModel FileState.absent).settings)
        [("p", Val.i 5)]) k =
      match lookup [("p", Val.i 5)] k with
      | some v => some v
      | none => lookup
          (intModel.dump (pipelineInit intModel FileState.absent).settings)
          k) ∧
    (update_settings intModel (pipelineInit intModel FileState.absent)
        [("p", Val.i 5)]).settings = 5 ∧
    (update_settings intModel (pipelineInit intModel FileState.absent)
        [("p", Val.i 5)]).file
      = FileState.stored (intModel.dump 5) ∧
    (update_settings intModel (pipelineInit intModel FileState.absent)
        [("p", Val.i 5)]).log
      = (pipelineInit intModel FileState.absent).log :=
  update_settings_persists_immediately intModel
    (pipelineInit intModel FileState.absent) [("p", Val.i 5)] 5
    (by decide) (by decide)

/-- Counterexample to C4 as stated: a valid `update_settings` call changes
the stored file immediately — durable storage does not wait for an
explicit save request. -/
theorem update_settings_cex :
    (update_settings intModel (pipelineInit intModel FileState.absent)
        [("p", Val.i 5)]).settings = 5 ∧
    ¬ (update_settings intModel (pipelineInit intModel FileState.absent)
        [("p", Val.i 5)]).file
      = (pipelineInit intModel FileState.absent).file := by
  exact ⟨by decide, by decide⟩

/-- C6: an update whose merged values fail validation leaves the in-memory
settings untouched, writes nothing to the file, and reports the failure
("Validation error updating settings" is printed, pipeline.py 97-100). -/
theorem update_settings_validation_atomic {M : Type}
    (sm : SettingsModel M) (st : PipelineState M) (new_settings : Props)
    (hv : sm.validate (dictUpdate (sm.dump st.settings) new_settings)
      = none) :
    (update_settings sm st new_settings).settings = st.settings ∧
    (update_settings sm st new_settings).file = st.file ∧
    (update_settings sm st new_settings).log
      = st.log ++ ["Validation error updating settings"] := by
  simp [update_settings, hv]

/-- Closed witness for `update_settings_validation_atomic`: assigning a
boolean to the integer property `p` is rejected and changes nothing. -/
theorem update_settings_validation_atomic_witness :
    (update_settings intModel (pipelineInit intModel FileState.absent)
        [("p", Val.b true)]).settings
      = (pipelineInit intModel FileState.absent).settings ∧
    (update_settings intModel (pipelineInit intModel FileState.absent)
        [("p", Val.b true)]).file
      = (pipelineInit intModel FileState.absent).file ∧
    (update_settings intModel (pipelineInit intModel FileState.absent)
        [("p", Val.b true)]).log
      = (pipelineInit intModel FileState.absent).log
        ++ ["Validation error updating settings"] :=
  update_settings_validation_atomic intModel
    (pipelineInit intModel FileState.absent) [("p", Val.b true)] (by decide)

/-- C7: update a property, save, and construct a fresh manager against the
same storage: the fresh manager loads the updated settings. Requires the
model's dump/validate round trip (`model_validate (model_dump m) = m`,
true of the pydantic models in pipeline.py). -/
theorem settings_round_trip {M : Type} (sm : SettingsModel M)
    (st : PipelineState M) (new_settings : Props) (updated : M)
    (hv : sm.validate (dictUpdate (sm.dump st.settings) new_settings)
      = some updated)
    (hrt : sm.validate (sm.dump updated) = some updated) :
    (pipelineInit sm
        (save_settings sm (update_settings sm st new_settings).settings
          (update_settings sm st new_settings).file)).settings = updated ∧
    (pipelineInit sm
        (save_settings sm (update_settings sm st new_settings).settings
          (update_settings sm st new_settings).file)).file
      = FileState.stored (sm.dump updated) := by
  have h1 : (update_settings sm st new_settings).settings = updated := by
    simp [update_settings, hv]
  rw [h1]
  simp [pipelineInit, load_settings, save_settings, hrt]

/-- Closed witness for `settings_round_trip`: set `p = 5`, save, reload
from the same file — the fresh manager holds `p = 5`. -/
theorem settings_round_trip_witness :
    (pipelineInit intModel
        (save_settings intModel
          (update_settings intModel (pipelineInit intModel FileState.absent)
            [("p", Val.i 5)]).settings
          (update_settings intModel (pipelineInit intModel FileState.absent)
            [("p", Val.i 5)]).file)).settings = 5 ∧
    (pipelineInit intModel
        (save_settings intModel
          (update_settings intModel (pipelineInit intModel FileState.absent)
            [("p", Val.i 5)]).settings
          (update_settings intModel (pipelineInit intModel FileState.absent)
            [("p", Val.i 5)]).file)).file
      = FileState.stored (intModel.dump 5) :=
  settings_round_trip intModel (pipelineInit intModel FileState.absent)
    [("p", Val.i 5)] 5 (by decide) (by decide)

/-- C10: if the settings file exists but reading or validating it fails,
manager creation falls back to the model defaults and immediately writes
those defaults over the file (pipeline.py 59-62), losing the previously
stored content. -/
theorem load_failure_overwrites_defaults {M : Type} (sm : SettingsModel M)
    (fs : FileState)
    (h : fs = FileState.corrupt ∨
      ∃ d, fs = FileState.stored d ∧ sm.validate d = none) :
    (pipelineInit sm fs).settings = sm.defaults ∧
    (pipelineInit sm fs).file = FileState.stored (sm.dump sm.defaults) ∧
    (pipelineInit sm fs).log = ["Error loading settings"] := by
  rcases h with rfl | ⟨d, rfl, hv⟩
  · simp [pipelineInit, load_settings, save_settings]
  · simp [pipelineInit, load_settings, save_settings, hv]

/-- Closed witness for `load_failure_overwrites_defaults`: a stored file
holding a boolean `p` fails validation; creation returns defaults and
rewrites the file with them, discarding the stored content. -/
theorem load_failure_overwrites_defaults_witness :
    (pipelineInit intModel (FileState.stored [("p", Val.b true)])).settings
      = intModel.defaults ∧
    (pipelineInit intModel (FileState.stored [("p", Val.b true)])).file
      = FileState.stored (intModel.dump intModel.defaults) ∧
    (pipelineInit intModel (FileState.stored [("p", Val.b true)])).log
      = ["Error loading settings"] :=
  load_failure_overwrites_defaults intModel
    (FileState.stored [("p", Val.b true)])
    (Or.inr ⟨[("p", Val.b true)], rfl, by decide⟩)

/-! ## Worker thread shutdown (`pipeline.py` start/stop/_worker) -/

/-- Control state of a `Pipeline`: the `running` flag and whether the
worker thread (the one executing `_worker`/`run_loop`) is still alive. -/
structure ThreadState where
  running : Bool
  workerAlive : Bool
deriving DecidableEq

/-- Observable steps of the pipeline lifecycle after `start`:
`workerCall` is one `run_loop` iteration making node calls; `workerExit`
is the worker function returning (loop exit or exception); `stopSignal`
is the body of `stop()` clearing `running`; `stopReturn` is `stop()`
returning after `self._thread.join()`. -/
inductive TLabel
  | workerCall
  | workerExit
  | stopSignal
  | stopReturn
deriving DecidableEq

/-- One interleaving step. Node calls happen only on the live worker
thread (pipeline.py 135-140); `join()` returns only once the worker
function has exited, so `stop()` (pipeline.py 127-133) can only return
with the worker dead. -/
inductive TStep : ThreadState → TLabel → ThreadState → Prop
  | workerCall {s : ThreadState} (h1 : s.workerAlive = true)
      (h2 : s.running = true) : TStep s TLabel.workerCall s
  | workerExit {s : ThreadState} (h : s.workerAlive = true) :
      TStep s TLabel.workerExit { s with workerAlive := false }
  | stopSignal {s : ThreadState} :
      TStep s TLabel.stopSignal { s with running := false }
  | stopReturn {s : ThreadState} (h : s.workerAlive = false) :
      TStep s TLabel.stopReturn s

/-- A sequence of interleaving steps. -/
inductive ValidTrace : ThreadState → List TLabel → ThreadState → Prop
  | nil {s : ThreadState} : ValidTrace s [] s
  | cons {s s' s'' : ThreadState} {l : TLabel} {ls : List TLabel}
      (hstep : TStep s l s') (htail : ValidTrace s' ls s'') :
      ValidTrace s (l :: ls) s''

/-- A dead worker stays dead: no label of this lifecycle revives it. -/
theorem TStep.dead_absorbing {s s' : ThreadState} {l : TLabel}
    (hstep : TStep s l s') (h : s.workerAlive = false) :
    s'.workerAlive = false := by
  cases hstep with
  | workerCall h1 h2 => exact h
  | workerExit h1 => rfl
  | stopSignal => exact h
  | stopReturn h1 => exact h

/-- After the worker is dead, no trace contains a node call. -/
theorem ValidTrace.dead_no_call {s s' : ThreadState} {tr : List TLabel}
    (h : ValidTrace s tr s') (hdead : s.workerAlive = false) :
    TLabel.workerCall ∉ tr := by
  induction h with
  | nil => exact List.not_mem_nil _
  | cons hstep htail ih =>
    intro hmem
    rcases List.mem_cons.mp hmem with rfl | hmem
    · cases hstep with
      | workerCall h1 h2 => rw [h1] at hdead; cases hdead
    · exact ih (hstep.dead_absorbing hdead) hmem

/-- C8: stop is synchronous. In any valid interleaving of the worker with
`stop()`, once `stop()` has returned (which requires `join()` to have seen
the worker exit) no further `run_loop` iteration — hence no node call —
ever occurs, so a subsequent rebuild cannot run concurrently with the old
graph's worker. -/
theorem stop_is_synchronous (s sfin : ThreadState) (t1 t2 : List TLabel)
    (h : ValidTrace s (t1 ++ TLabel.stopReturn :: t2) sfin) :
    TLabel.workerCall ∉ t2 := by
  induction t1 generalizing s with
  | nil =>
    cases h with
    | cons hstep htail =>
      cases hstep with
      | stopReturn hdead => exact htail.dead_no_call hdead
  | cons l t1 ih =>
    cases h with
    | cons hstep htail => exact ih _ htail

/-- Closed witness for `stop_is_synchronous`: the worker observes the stop
signal, exits, `stop()` returns, and a redundant second stop signal later
in the trace contains no node call. -/
theorem stop_is_synchronous_witness :
    TLabel.workerCall ∉ ([TLabel.stopSignal] : List TLabel) :=
  stop_is_synchronous ⟨true, true⟩ ⟨false, false⟩
    [TLabel.stopSignal, TLabel.workerExit] [TLabel.stopSignal]
    (ValidTrace.cons TStep.stopSignal
      (ValidTrace.cons (TStep.workerExit rfl)
        (ValidTrace.cons (TStep.stopReturn rfl)
          (ValidTrace.cons TStep.stopSignal ValidTrace.nil))))

end Dustycam
